import Mathlib

/-!
Verification of the KVDatabase skip-list repository.

The development shallowly embeds the repository's C++ sources:

* `skiplist_mvcc.h` — the MVCC skip list (`Version`, `NodeMVCC`, `Transaction`,
  `SkipListMVCC`): version chains become `List (Version V)`, the linked node
  structure becomes the list of nodes in base-level order (each node carrying
  its tower height `node_level`, so the level-`i` forward chain is exactly the
  subsequence of nodes whose height is at least `i`, per the tower-contiguity
  invariants of the structure), transactions become records held in the state.
  Machine integers (`uint64_t` timestamps) are `Nat` with the explicit sentinel
  `UINT64_MAX = 2 ^ 64 - 1`; all comparisons performed by the code stay below
  that bound, where `Nat` and `uint64_t` agree.
* `skiplist_optimized.h` — the non-MVCC variant (`NodeOpt`, `SkipListOptimized`)
  over the same structural machinery, with a plain value payload.
* `memory_pool.h` — `NodeMemoryPool` with its free list and counters; the
  `std::vector` free list keeps its order, `back`/`pop_back` act on the end.

The source's randomness (`get_random_level`) is a pluggable input: each insert
takes the generator's output `random_level` as an argument.  Locking, file I/O
and console output are concurrency/IO artefacts with no bearing on the claims
and are not modelled; each operation is the function computed between lock
acquisition and release.
-/

namespace KVDB

/-- The `UINT64_MAX` sentinel used by the source for `delete_ts` ("not deleted"). -/
def UINT64_MAX : Nat := 2 ^ 64 - 1

/-- Transaction state enumeration (`TransactionState`, skiplist_mvcc.h lines 28–32). -/
inductive TransactionState where
  | ACTIVE
  | COMMITTED
  | ABORTED
deriving DecidableEq

/-- Version record (`struct Version`, skiplist_mvcc.h lines 35–55).  The `next`
pointer is represented by the position in the chain list (head = newest). -/
structure Version (V : Type) where
  value : V
  create_ts : Nat
  delete_ts : Nat
  is_committed : Bool
deriving DecidableEq

/-- The `Version(v, create)` constructor: `delete_ts` defaults to `UINT64_MAX`
and `is_committed` to `false` (skiplist_mvcc.h lines 43–44). -/
def mkVersion {V : Type} (v : V) (create : Nat) : Version V :=
  ⟨v, create, UINT64_MAX, false⟩

/-- `Version::is_visible` (skiplist_mvcc.h lines 47–54): a version created by
the reading transaction is visible while not deleted before it; a version
created by another transaction must additionally be committed and older. -/
def is_visible {V : Type} (v : Version V) (txn_id : Nat) : Bool :=
  if v.create_ts = txn_id then
    decide (txn_id < v.delete_ts)
  else
    v.is_committed && decide (v.create_ts < txn_id) && decide (txn_id < v.delete_ts)

/-- `NodeMVCC::add_version` (skiplist_mvcc.h lines 104–110): prepend a fresh
uncommitted version at the chain head. -/
def add_version {V : Type} (chain : List (Version V)) (value : V) (txn_id : Nat) :
    List (Version V) :=
  mkVersion value txn_id :: chain

/-- `NodeMVCC::get_visible_version` (skiplist_mvcc.h lines 112–123): walk the
chain from the head and return the first visible version, else null. -/
def get_visible_version {V : Type} (chain : List (Version V)) (txn_id : Nat) :
    Option (Version V) :=
  match chain with
  | [] => none
  | v :: rest => if is_visible v txn_id then some v else get_visible_version rest txn_id

/-- `NodeMVCC::mark_deleted` (skiplist_mvcc.h lines 125–131): set `delete_ts`
of the head version, if any. -/
def mark_deleted {V : Type} (chain : List (Version V)) (txn_id : Nat) :
    List (Version V) :=
  match chain with
  | [] => []
  | v :: rest => { v with delete_ts := txn_id } :: rest

/-- `NodeMVCC::commit_version` (skiplist_mvcc.h lines 133–143): mark every
version created by the committing transaction as committed. -/
def commit_version {V : Type} (chain : List (Version V)) (txn_id : Nat) :
    List (Version V) :=
  chain.map fun v => if v.create_ts = txn_id then { v with is_committed := true } else v

/-- `NodeMVCC::gc_versions` (skiplist_mvcc.h lines 145–165): always keep the
head version; from the second version on, unsplice exactly those whose
`delete_ts` is below the minimum active transaction id. -/
def gc_versions {V : Type} (chain : List (Version V)) (min_active_txn_id : Nat) :
    List (Version V) :=
  match chain with
  | [] => []
  | head :: rest => head :: rest.filter fun v => ! decide (v.delete_ts < min_active_txn_id)

/-- A node of the multi-level list, with the payload abstracted: the optimized
variant stores a plain value, the MVCC variant a version chain.  `height` is
the node's `node_level`; the node is linked at levels `0 .. height`.  States
keep nodes in base-level (level-0 forward) order, so the level-`i` chain is
the subsequence of nodes with `i ≤ height` (spec §3 invariants 2–3). -/
structure SLEntry (K : Type) (P : Type) where
  key : K
  height : Nat
  payload : P
deriving DecidableEq

/-- The sequence of nodes reachable from the header along `forward[i]`. -/
def walkLevel {K P : Type} (i : Nat) (entries : List (SLEntry K P)) :
    List (SLEntry K P) :=
  entries.filter fun e => decide (i ≤ e.height)

/-- One level of the search descent: from the current node (the cursor is the
level-0 suffix strictly after it), repeatedly follow `forward[i]` — the next
node of height at least `i` — while its key is below the target; the loop
`while (current->forward[i] && current->forward[i]->get_key() < key)` shared
by insert/search/delete/range in both variants. -/
def advanceLevel {K P : Type} [LinearOrder K] (key : K) (i : Nat) :
    List (SLEntry K P) → List (SLEntry K P)
  | [] => []
  | e :: rest =>
    if i ≤ e.height then
      if e.key < key then advanceLevel key i rest else e :: rest
    else
      let r := advanceLevel key i rest
      if r.length = rest.length then e :: rest else r

/-- The full descent `for (i = level; i >= 0; i--)` of the search loops: run
`advanceLevel` from the top level down to level 0 and return the final cursor
(the level-0 suffix after `update[0]`; its head is the candidate node). -/
def descend {K P : Type} [LinearOrder K] (key : K) :
    Nat → List (SLEntry K P) → List (SLEntry K P)
  | 0, s => advanceLevel key 0 s
  | i + 1, s => descend key i (advanceLevel key (i + 1) s)

/-- Splice a new node in front of the suffix `s0` of `l` (the pointer updates
`new->forward[i] = update[i]->forward[i]; update[i]->forward[i] = new` viewed
on the node sequence; a suffix of `l` is identified by its length). -/
def spliceBefore {α : Type} (a : α) : List α → List α → List α
  | [], _ => [a]
  | e :: rest, s0 =>
    if (e :: rest).length = s0.length then a :: e :: rest
    else e :: spliceBefore a rest s0

/-- Unsplice the head node of the suffix `s0` of `l` (the pointer updates
`update[i]->forward[i] = current->forward[i]` of `delete_element`). -/
def dropSuffixHead {α : Type} : List α → List α → List α
  | [], _ => []
  | e :: rest, s0 =>
    if (e :: rest).length = s0.length then rest
    else e :: dropSuffixHead rest s0

/-- Replace the head node of the suffix `s0` of `l` by `f` of it (an in-place
update of the located node, e.g. of its version chain). -/
def modifySuffixHead {α : Type} (f : α → α) : List α → List α → List α
  | [], _ => []
  | e :: rest, s0 =>
    if (e :: rest).length = s0.length then f e :: rest
    else e :: modifySuffixHead f rest s0

/-- The level-decay loop of `SkipListOptimized::delete_element` (lines 352–354):
`while (_skip_list_level > 0 && _header->forward[_skip_list_level] == 0)
_skip_list_level--`.  `forward[i]` of the header is null exactly when no node
has height at least `i`. -/
def decayLevel {K P : Type} (entries : List (SLEntry K P)) : Nat → Nat
  | 0 => 0
  | l + 1 =>
    if (entries.filter fun e => decide (l + 1 ≤ e.height)).isEmpty then
      decayLevel entries l
    else l + 1

/-- The optimized (non-MVCC) skip list (`SkipListOptimized`,
skiplist_optimized.h lines 98–152): current level, nodes in base-level order
(payload = the stored value) and the element counter. -/
structure SkipListOptimized (K V : Type) where
  max_level : Nat
  skip_list_level : Nat
  entries : List (SLEntry K V)
  element_count : Nat
deriving DecidableEq

/-- The `SkipListOptimized(max_level, ...)` constructor: empty list, level 0. -/
def SkipListOptimized.empty {K V : Type} (max_level : Nat) : SkipListOptimized K V :=
  ⟨max_level, 0, [], 0⟩

/-- `SkipListOptimized::insert_element` (skiplist_optimized.h lines 189–248).
`random_level` is the value produced by `get_random_level()`.  Returns 1 and
changes nothing when the key already exists, otherwise splices a node of
height `random_level` at the located position, raising the current level when
needed, and returns 0. -/
def SkipListOptimized.insert_element {K V : Type} [LinearOrder K]
    (s : SkipListOptimized K V) (key : K) (value : V) (random_level : Nat) :
    Int × SkipListOptimized K V :=
  let s0 := descend key s.skip_list_level s.entries
  let found : Bool :=
    match s0.head? with
    | some e => decide (e.key = key)
    | none => false
  if found then (1, s)
  else
    let lvl := if s.skip_list_level < random_level then random_level else s.skip_list_level
    (0, { s with
      skip_list_level := lvl,
      entries := spliceBefore ⟨key, random_level, value⟩ s.entries s0,
      element_count := s.element_count + 1 })

/-- `SkipListOptimized::search_element` (skiplist_optimized.h lines 252–285):
the Boolean result of the source, paired with the located node's value (the
value the source reads with `get_value()` and prints on success). -/
def SkipListOptimized.search_element {K V : Type} [LinearOrder K]
    (s : SkipListOptimized K V) (key : K) : Bool × Option V :=
  match (descend key s.skip_list_level s.entries).head? with
  | some e => if e.key = key then (true, some e.payload) else (false, none)
  | none => (false, none)

/-- `SkipListOptimized::delete_element` (skiplist_optimized.h lines 322–368):
unsplice the node when found, then decay the current level while the header's
forward pointer at that level is null, and decrement the counter. -/
def SkipListOptimized.delete_element {K V : Type} [LinearOrder K]
    (s : SkipListOptimized K V) (key : K) : SkipListOptimized K V :=
  let s0 := descend key s.skip_list_level s.entries
  match s0.head? with
  | some e =>
    if e.key = key then
      let entries' := dropSuffixHead s.entries s0
      { s with
        entries := entries',
        skip_list_level := decayLevel entries' s.skip_list_level,
        element_count := s.element_count - 1 }
    else s
  | none => s

/-- Transaction descriptor (`class Transaction`, skiplist_mvcc.h lines 168–196):
id, state and the list of modified nodes (nodes are identified by their key;
the structure holds one node per key).  `start_time` is diagnostic only. -/
structure TransactionM (K : Type) where
  txn_id : Nat
  state : TransactionState
  modified_nodes : List K
deriving DecidableEq

/-- The MVCC skip list (`SkipListMVCC`, skiplist_mvcc.h lines 199–258): the
structural list (payload = version chain), the transaction-id counter, the
set of registered transaction ids still active, every transaction descriptor
ever created (the objects the caller's handles point to), and the counters. -/
structure SkipListMVCC (K V : Type) where
  max_level : Nat
  skip_list_level : Nat
  entries : List (SLEntry K (List (Version V)))
  next_txn_id : Nat
  active_transactions : List Nat
  txns : List (TransactionM K)
  total_commits : Nat
  total_aborts : Nat
  total_versions : Nat
deriving DecidableEq

/-- The `SkipListMVCC(max_level, ...)` constructor (lines 260–271):
`_next_txn_id` starts at 1, all counters at 0, the list empty. -/
def SkipListMVCC.empty {K V : Type} (max_level : Nat) : SkipListMVCC K V :=
  ⟨max_level, 0, [], 1, [], [], 0, 0, 0⟩

/-- Dereference a transaction handle: `none` is a null `shared_ptr`; an id is
resolved to the descriptor it points to. -/
def getTxn {K V : Type} (s : SkipListMVCC K V) : Option Nat → Option (TransactionM K)
  | none => none
  | some tid => s.txns.find? fun r => decide (r.txn_id = tid)

/-- The guard `!txn || !txn->is_active()` at the head of every MVCC operation:
yields the descriptor only for a non-null handle in the `ACTIVE` state. -/
def getActiveTxn {K V : Type} (s : SkipListMVCC K V) (tid : Option Nat) :
    Option (TransactionM K) :=
  match getTxn s tid with
  | some r => if r.state = TransactionState.ACTIVE then some r else none
  | none => none

/-- `Transaction::add_modified_node` (skiplist_mvcc.h lines 193–196) applied to
the descriptor with the given id: push the node onto its modified list. -/
def addModified {K : Type} (txns : List (TransactionM K)) (tid : Nat) (key : K) :
    List (TransactionM K) :=
  txns.map fun r =>
    if r.txn_id = tid then { r with modified_nodes := r.modified_nodes ++ [key] } else r

/-- `SkipListMVCC::begin_transaction` (skiplist_mvcc.h lines 312–324):
fetch-and-add the id counter, create an active descriptor, register it. -/
def SkipListMVCC.begin_transaction {K V : Type} (s : SkipListMVCC K V) :
    Nat × SkipListMVCC K V :=
  (s.next_txn_id,
   { s with
     next_txn_id := s.next_txn_id + 1,
     active_transactions := s.active_transactions ++ [s.next_txn_id],
     txns := s.txns ++ [⟨s.next_txn_id, TransactionState.ACTIVE, []⟩] })

/-- `SkipListMVCC::commit_transaction` (skiplist_mvcc.h lines 327–350): fail on
a null or non-active handle; otherwise run `commit_version` on every modified
node, mark the descriptor committed, deregister it, bump the commit counter. -/
def SkipListMVCC.commit_transaction {K V : Type} [DecidableEq K]
    (s : SkipListMVCC K V) (tid : Option Nat) : Bool × SkipListMVCC K V :=
  match getActiveTxn s tid with
  | none => (false, s)
  | some txn =>
    (true,
     { s with
       entries := txn.modified_nodes.foldl
         (fun es k => es.map fun e =>
           if e.key = k then { e with payload := commit_version e.payload txn.txn_id } else e)
         s.entries,
       txns := s.txns.map fun r =>
         if r.txn_id = txn.txn_id then { r with state := TransactionState.COMMITTED } else r,
       active_transactions := s.active_transactions.filter fun i => ! decide (i = txn.txn_id),
       total_commits := s.total_commits + 1 })

/-- `SkipListMVCC::abort_transaction` (skiplist_mvcc.h lines 353–370): mark the
descriptor aborted, deregister it, bump the abort counter.  Versions written
by the transaction are left in place, merely never committed. -/
def SkipListMVCC.abort_transaction {K V : Type} (s : SkipListMVCC K V)
    (tid : Option Nat) : SkipListMVCC K V :=
  match getActiveTxn s tid with
  | none => s
  | some txn =>
    { s with
      txns := s.txns.map fun r =>
        if r.txn_id = txn.txn_id then { r with state := TransactionState.ABORTED } else r,
      active_transactions := s.active_transactions.filter fun i => ! decide (i = txn.txn_id),
      total_aborts := s.total_aborts + 1 }

/-- `SkipListMVCC::insert_element` (skiplist_mvcc.h lines 373–430): -1 on a
null/non-active handle; if the key exists, prepend a new version to its chain;
otherwise splice a fresh node of height `random_level` whose chain holds the
one new version.  Either way record the node in the transaction and return 0. -/
def SkipListMVCC.insert_element {K V : Type} [LinearOrder K]
    (s : SkipListMVCC K V) (tid : Option Nat) (key : K) (value : V)
    (random_level : Nat) : Int × SkipListMVCC K V :=
  match getActiveTxn s tid with
  | none => (-1, s)
  | some txn =>
    let s0 := descend key s.skip_list_level s.entries
    let found : Bool :=
      match s0.head? with
      | some e => decide (e.key = key)
      | none => false
    if found then
      (0, { s with
        entries := modifySuffixHead
          (fun e => { e with payload := add_version e.payload value txn.txn_id })
          s.entries s0,
        txns := addModified s.txns txn.txn_id key,
        total_versions := s.total_versions + 1 })
    else
      let lvl := if s.skip_list_level < random_level then random_level else s.skip_list_level
      (0, { s with
        skip_list_level := lvl,
        entries := spliceBefore ⟨key, random_level, add_version [] value txn.txn_id⟩
          s.entries s0,
        txns := addModified s.txns txn.txn_id key,
        total_versions := s.total_versions + 1 })

/-- `SkipListMVCC::search_element` (skiplist_mvcc.h lines 433–467): the Boolean
result of the source, paired with the value it writes through the out-pointer
(`version->value` of the first visible version of the located node). -/
def SkipListMVCC.search_element {K V : Type} [LinearOrder K]
    (s : SkipListMVCC K V) (tid : Option Nat) (key : K) : Bool × Option V :=
  match getActiveTxn s tid with
  | none => (false, none)
  | some txn =>
    match (descend key s.skip_list_level s.entries).head? with
    | some e =>
      if e.key = key then
        match get_visible_version e.payload txn.txn_id with
        | some ver => (true, some ver.value)
        | none => (false, none)
      else (false, none)
    | none => (false, none)

/-- `SkipListMVCC::delete_element` (skiplist_mvcc.h lines 470–497): when the
key is found, mark the head version deleted at this transaction's id; no
structural removal, no modified-node recording, no counter change. -/
def SkipListMVCC.delete_element {K V : Type} [LinearOrder K]
    (s : SkipListMVCC K V) (tid : Option Nat) (key : K) : SkipListMVCC K V :=
  match getActiveTxn s tid with
  | none => s
  | some txn =>
    let s0 := descend key s.skip_list_level s.entries
    match s0.head? with
    | some e =>
      if e.key = key then
        { s with
          entries := modifySuffixHead
            (fun e => { e with payload := mark_deleted e.payload txn.txn_id })
            s.entries s0 }
      else s
    | none => s

/-- The collection loop of `range_query` (skiplist_mvcc.h lines 527–533): walk
level 0 while the key is at most `end_key`, emitting the first visible
version's value of each node that has one. -/
def collectRange {K V : Type} [LinearOrder K] (txn_id : Nat) (end_key : K) :
    List (SLEntry K (List (Version V))) → List (K × V)
  | [] => []
  | e :: rest =>
    if e.key ≤ end_key then
      match get_visible_version e.payload txn_id with
      | some ver => (e.key, ver.value) :: collectRange txn_id end_key rest
      | none => collectRange txn_id end_key rest
    else []

/-- `SkipListMVCC::range_query` (skiplist_mvcc.h lines 500–538): empty on a
null/non-active handle or when `start_key > end_key`; otherwise descend to
the first key not below `start_key` and collect visible versions upward. -/
def SkipListMVCC.range_query {K V : Type} [LinearOrder K]
    (s : SkipListMVCC K V) (tid : Option Nat) (start_key end_key : K) :
    List (K × V) :=
  match getActiveTxn s tid with
  | none => []
  | some txn =>
    if start_key > end_key then []
    else collectRange txn.txn_id end_key (descend start_key s.skip_list_level s.entries)

/-- `SkipListMVCC::get_min_active_txn_id` (skiplist_mvcc.h lines 558–571):
`next_txn_id` when no transaction is active, else the minimum active id. -/
def SkipListMVCC.get_min_active_txn_id {K V : Type} (s : SkipListMVCC K V) : Nat :=
  if s.active_transactions.isEmpty then s.next_txn_id
  else s.active_transactions.foldl Nat.min UINT64_MAX

/-- `SkipListMVCC::gc` (skiplist_mvcc.h lines 574–592): run `gc_versions` with
the minimum active id on every node's chain. -/
def SkipListMVCC.gc {K V : Type} (s : SkipListMVCC K V) : SkipListMVCC K V :=
  let m := s.get_min_active_txn_id
  { s with entries := s.entries.map fun e => { e with payload := gc_versions e.payload m } }

/-- An operation of the optimized variant, for stating invariants over
arbitrary operation sequences; `ins` carries the random level drawn by
`get_random_level()` for that call. -/
inductive OptOp (K V : Type) where
  | ins (key : K) (value : V) (random_level : Nat)
  | del (key : K)

/-- Apply one optimized-variant operation to the state. -/
def applyOpt {K V : Type} [LinearOrder K] (s : SkipListOptimized K V) :
    OptOp K V → SkipListOptimized K V
  | OptOp.ins k v rl => (s.insert_element k v rl).2
  | OptOp.del k => s.delete_element k

/-- Run a sequence of optimized-variant operations. -/
def runOpt {K V : Type} [LinearOrder K] (ops : List (OptOp K V))
    (s : SkipListOptimized K V) : SkipListOptimized K V :=
  ops.foldl applyOpt s

/-- An operation of the MVCC variant (transaction handles by id). -/
inductive MOp (K V : Type) where
  | begin
  | ins (tid : Nat) (key : K) (value : V) (random_level : Nat)
  | del (tid : Nat) (key : K)
  | commit (tid : Nat)
  | abort (tid : Nat)
  | gc

/-- Apply one MVCC operation to the state. -/
def applyM {K V : Type} [LinearOrder K] (s : SkipListMVCC K V) :
    MOp K V → SkipListMVCC K V
  | MOp.begin => s.begin_transaction.2
  | MOp.ins tid k v rl => (s.insert_element (some tid) k v rl).2
  | MOp.del tid k => s.delete_element (some tid) k
  | MOp.commit tid => (s.commit_transaction (some tid)).2
  | MOp.abort tid => s.abort_transaction (some tid)
  | MOp.gc => s.gc

/-- Run a sequence of MVCC operations. -/
def runM {K V : Type} [LinearOrder K] (ops : List (MOp K V))
    (s : SkipListMVCC K V) : SkipListMVCC K V :=
  ops.foldl applyM s

/-- The version chain of the node with the given key (empty when the key is
structurally absent, matching a node that was never created). -/
def chainOfEntries {K V : Type} [DecidableEq K] (key : K)
    (entries : List (SLEntry K (List (Version V)))) : List (Version V) :=
  match entries.find? (fun e => decide (e.key = key)) with
  | some e => e.payload
  | none => []

/-- Optimized-variant node as the memory pool handles it (`NodeOpt`,
skiplist_optimized.h lines 28–95): key, value, `node_level`, and the forward
array of `node_level + 1` pointer slots. -/
structure NodeOpt (K V : Type) where
  key : K
  value : V
  node_level : Nat
  forward : List (Option Nat)
deriving DecidableEq

/-- The `NodeOpt(k, v, level)` constructor (lines 59–69): a forward array of
`level + 1` null slots. -/
def NodeOpt.fresh {K V : Type} (key : K) (value : V) (level : Nat) : NodeOpt K V :=
  ⟨key, value, level, List.replicate (level + 1) none⟩

/-- `NodeMemoryPool` (memory_pool.h lines 27–163): the free list (a
`std::vector`, reused from the back) and the two diagnostic counters. -/
structure NodeMemoryPool (K V : Type) where
  free_list : List (NodeOpt K V)
  allocated_count : Nat
  reused_count : Nat
deriving DecidableEq

/-- `NodeMemoryPool::reinitialize_node` (memory_pool.h lines 144–158):
reallocate the forward array when the level changed, zero it (`memset`), and
set the new key and value. -/
def reinitialize_node {K V : Type} (node : NodeOpt K V) (key : K) (value : V)
    (level : Nat) : NodeOpt K V :=
  let node :=
    if node.node_level ≠ level then
      { node with forward := List.replicate (level + 1) none, node_level := level }
    else node
  let node := { node with forward := node.forward.map fun _ => none }
  { node with key := key, value := value }

/-- `NodeMemoryPool::allocate` (memory_pool.h lines 59–79): reuse the back of
the free list when possible (reinitializing it), else construct a fresh node;
bump the matching counter. -/
def NodeMemoryPool.allocate {K V : Type} (pool : NodeMemoryPool K V) (key : K)
    (value : V) (level : Nat) : NodeOpt K V × NodeMemoryPool K V :=
  match pool.free_list.getLast? with
  | some node =>
    (reinitialize_node node key value level,
     { pool with free_list := pool.free_list.dropLast, reused_count := pool.reused_count + 1 })
  | none =>
    (NodeOpt.fresh key value level,
     { pool with allocated_count := pool.allocated_count + 1 })

/-- `NodeMemoryPool::deallocate` (memory_pool.h lines 85–95): push the node
back onto the free list without freeing it. -/
def NodeMemoryPool.deallocate {K V : Type} (pool : NodeMemoryPool K V)
    (node : NodeOpt K V) : NodeMemoryPool K V :=
  { pool with free_list := pool.free_list ++ [node] }

/-- Well-formedness of a pool: every cached node's forward array has the
length its `node_level` dictates (true of every node the pool ever receives). -/
def PoolWF {K V : Type} (pool : NodeMemoryPool K V) : Prop :=
  ∀ n ∈ pool.free_list, n.forward.length = n.node_level + 1

/-- One round of the GC end-to-end scenario (spec §8 scenario 5 and
test_mvcc.cpp `test_garbage_collection`): begin a transaction, insert value
`i` for key 1, commit. -/
def gcScenarioStep (s : SkipListMVCC Nat Nat) (i : Nat) : SkipListMVCC Nat Nat :=
  let p := s.begin_transaction
  let s2 := (p.2.insert_element (some p.1) 1 i 1).2
  (s2.commit_transaction (some p.1)).2

/-- The state after ten sequential committed writes `0 .. 9` to key 1. -/
def gcScenario : SkipListMVCC Nat Nat :=
  (List.range 10).foldl gcScenarioStep (SkipListMVCC.empty 6)

/-- The scenario state after `gc()` with no transaction active. -/
def gcScenarioAfter : SkipListMVCC Nat Nat :=
  gcScenario.gc

/-- Structural invariant 1 of the spec: the node sequence carries strictly
increasing keys (hence so does every level's chain). -/
def KeySorted {K P : Type} [LinearOrder K] (l : List (SLEntry K P)) : Prop :=
  l.Pairwise fun a b => a.key < b.key

/-! ### Version-chain lemmas -/

theorem get_visible_version_eq_none {V : Type} (c : List (Version V)) (t : Nat) :
    get_visible_version c t = none ↔ ∀ v ∈ c, is_visible v t = false := by
  induction c with
  | nil => simp [get_visible_version]
  | cons v rest ih =>
    by_cases h : is_visible v t
    · simp [get_visible_version, h]
    · simp only [get_visible_version, if_neg h, ih, List.mem_cons]
      constructor
      · intro hall u hu
        rcases hu with hu | hu
        · subst hu; exact Bool.eq_false_iff.mpr h
        · exact hall u hu
      · intro hall u hu
        exact hall u (Or.inr hu)

theorem get_visible_version_eq_some {V : Type} {c : List (Version V)} {t : Nat}
    {ver : Version V} (h : get_visible_version c t = some ver) :
    ∃ p q, c = p ++ ver :: q ∧ is_visible ver t = true ∧
      ∀ u ∈ p, is_visible u t = false := by
  induction c with
  | nil => simp [get_visible_version] at h
  | cons v rest ih =>
    by_cases hv : is_visible v t
    · simp only [get_visible_version, if_pos hv, Option.some.injEq] at h
      exact ⟨[], rest, by simp [h], h ▸ hv, by simp⟩
    · simp only [get_visible_version, if_neg hv] at h
      obtain ⟨p, q, hc, hvis, hpre⟩ := ih h
      refine ⟨v :: p, q, by simp [hc], hvis, ?_⟩
      intro u hu
      rcases List.mem_cons.mp hu with hu | hu
      · subst hu; exact Bool.eq_false_iff.mpr hv
      · exact hpre u hu

theorem get_visible_version_head_own {V : Type} (c : List (Version V)) (v : V)
    (t d : Nat) (b : Bool) (ht : t < d) :
    get_visible_version (⟨v, t, d, b⟩ :: c) t = some ⟨v, t, d, b⟩ := by
  simp [get_visible_version, is_visible, ht]

theorem get_visible_version_committed {V : Type} {c : List (Version V)}
    {t : Nat} {ver : Version V} (h : get_visible_version c t = some ver)
    (hne : ver.create_ts ≠ t) : ver.is_committed = true := by
  obtain ⟨p, q, _, hvis, _⟩ := get_visible_version_eq_some h
  simp only [is_visible, if_neg hne, Bool.and_eq_true, decide_eq_true_eq] at hvis
  exact hvis.1.1

theorem commit_version_marks {V : Type} (c : List (Version V)) (t : Nat) :
    ∀ ver ∈ commit_version c t, ver.create_ts = t → ver.is_committed = true := by
  intro ver hver hts
  simp only [commit_version, List.mem_map] at hver
  obtain ⟨u, _, hu⟩ := hver
  by_cases h : u.create_ts = t
  · simp [if_pos h] at hu
    simp [← hu]
  · simp [if_neg h] at hu
    exact absurd (hu ▸ hts) h

theorem commit_version_cons {V : Type} (v : Version V) (c : List (Version V))
    (t : Nat) :
    commit_version (v :: c) t =
      (if v.create_ts = t then { v with is_committed := true } else v) ::
        commit_version c t := by
  simp [commit_version]

/-! ### Claim C1 -/

/-- C1: a version is visible to transaction `t` exactly when
`(create_ts = t ∧ delete_ts > t)` or `(is_committed ∧ create_ts < t ∧
delete_ts > t)`; and `get_visible_version` walks the chain from the head and
returns the first version satisfying the predicate, or null when none does. -/
theorem C1_visibility_lookup {V : Type} :
    (∀ (v : Version V) (t : Nat),
      is_visible v t = true ↔
        ((v.create_ts = t ∧ t < v.delete_ts) ∨
         (v.is_committed = true ∧ v.create_ts < t ∧ t < v.delete_ts))) ∧
    (∀ (c : List (Version V)) (t : Nat),
      (get_visible_version c t = none ↔ ∀ v ∈ c, is_visible v t = false) ∧
      (∀ ver, get_visible_version c t = some ver →
        ∃ p q, c = p ++ ver :: q ∧ is_visible ver t = true ∧
          ∀ u ∈ p, is_visible u t = false)) := by
  constructor
  · intro v t
    by_cases h : v.create_ts = t
    · subst h
      have hv : is_visible v v.create_ts = decide (v.create_ts < v.delete_ts) := by
        unfold is_visible
        rw [if_pos rfl]
      rw [hv, decide_eq_true_eq]
      constructor
      · intro hd; exact Or.inl ⟨rfl, hd⟩
      · rintro (⟨-, hd⟩ | ⟨-, hlt, -⟩)
        · exact hd
        · exact absurd hlt (lt_irrefl _)
    · simp only [is_visible, if_neg h, Bool.and_eq_true, decide_eq_true_eq]
      constructor
      · rintro ⟨⟨hc, hlt⟩, hd⟩; exact Or.inr ⟨hc, hlt, hd⟩
      · rintro (⟨he, -⟩ | ⟨hc, hlt, hd⟩)
        · exact absurd he h
        · exact ⟨⟨hc, hlt⟩, hd⟩
  · intro c t
    exact ⟨get_visible_version_eq_none c t,
      fun ver h => get_visible_version_eq_some h⟩

/-! ### Descent lemmas

On a sorted node sequence, the multi-level descent lands exactly on the first
node whose key is not below the target, i.e. the final cursor is `dropWhile
(key < target)` of the sequence. -/

theorem keySorted_tail {K P : Type} [LinearOrder K] {e : SLEntry K P}
    {l : List (SLEntry K P)} (h : KeySorted (e :: l)) : KeySorted l :=
  (List.pairwise_cons.mp h).2

theorem keySorted_suffix {K P : Type} [LinearOrder K] {a b : List (SLEntry K P)}
    (h : KeySorted (a ++ b)) : KeySorted b :=
  (List.pairwise_append.mp h).2.1

theorem advanceLevel_suffix {K P : Type} [LinearOrder K] (key : K) (i : Nat) :
    ∀ s : List (SLEntry K P), KeySorted s →
      ∃ pre, s = pre ++ advanceLevel key i s ∧ ∀ x ∈ pre, x.key < key
  | [], _ => ⟨[], by simp [advanceLevel], by simp⟩
  | e :: rest, hs => by
    have hs' : KeySorted rest := keySorted_tail hs
    by_cases h1 : i ≤ e.height
    · by_cases h2 : e.key < key
      · obtain ⟨pre', heq, hall⟩ := advanceLevel_suffix key i rest hs'
        refine ⟨e :: pre', ?_, ?_⟩
        · simp only [advanceLevel, if_pos h1, if_pos h2, List.cons_append]
          exact congrArg (e :: ·) heq
        · intro x hx
          rcases List.mem_cons.mp hx with rfl | hx
          · exact h2
          · exact hall x hx
      · exact ⟨[], by simp [advanceLevel, if_pos h1, if_neg h2], by simp⟩
    · by_cases h3 : (advanceLevel key i rest).length = rest.length
      · refine ⟨[], ?_, by simp⟩
        simp [advanceLevel, if_neg h1, if_pos h3]
      · obtain ⟨pre', heq, hall⟩ := advanceLevel_suffix key i rest hs'
        have hpre' : pre' ≠ [] := by
          intro hnil
          subst hnil
          simp only [List.nil_append] at heq
          exact h3 (by rw [← heq])
        obtain ⟨y, hy⟩ := List.exists_mem_of_ne_nil pre' hpre'
        have hyk : y.key < key := hall y hy
        have hey : e.key < y.key := by
          have hymem : y ∈ rest := heq ▸ List.mem_append.mpr (Or.inl hy)
          exact (List.pairwise_cons.mp hs).1 y hymem
        refine ⟨e :: pre', ?_, ?_⟩
        · simp only [advanceLevel, if_neg h1, if_neg h3, List.cons_append]
          exact congrArg (e :: ·) heq
        · intro x hx
          rcases List.mem_cons.mp hx with rfl | hx
          · exact lt_trans hey hyk
          · exact hall x hx

theorem advanceLevel_zero {K P : Type} [LinearOrder K] (key : K) :
    ∀ s : List (SLEntry K P),
      advanceLevel key 0 s = s.dropWhile fun e => decide (e.key < key)
  | [] => by simp [advanceLevel]
  | e :: rest => by
    by_cases h2 : e.key < key
    · simp [advanceLevel, List.dropWhile_cons, h2, advanceLevel_zero key rest]
    · simp [advanceLevel, List.dropWhile_cons, h2]

theorem dropWhile_append_all {α : Type} (p : α → Bool) :
    ∀ a b : List α, (∀ x ∈ a, p x = true) →
      (a ++ b).dropWhile p = b.dropWhile p
  | [], _, _ => by simp
  | x :: a, b, h => by
    have hx : p x = true := h x (List.mem_cons_self x a)
    simp only [List.cons_append, List.dropWhile_cons, hx, if_true]
    exact dropWhile_append_all p a b fun y hy => h y (List.mem_cons_of_mem x hy)

theorem descend_sorted {K P : Type} [LinearOrder K] (key : K) :
    ∀ (L : Nat) (s : List (SLEntry K P)), KeySorted s →
      descend key L s = s.dropWhile fun e => decide (e.key < key)
  | 0, s, _ => advanceLevel_zero key s
  | L + 1, s, hs => by
    obtain ⟨pre, heq, hall⟩ := advanceLevel_suffix key (L + 1) s hs
    have hs1 : KeySorted (advanceLevel key (L + 1) s) := keySorted_suffix (heq ▸ hs)
    have ih := descend_sorted key L (advanceLevel key (L + 1) s) hs1
    calc descend key (L + 1) s
        = descend key L (advanceLevel key (L + 1) s) := rfl
      _ = (advanceLevel key (L + 1) s).dropWhile fun e => decide (e.key < key) := ih
      _ = s.dropWhile fun e => decide (e.key < key) := by
          conv_rhs => rw [heq]
          exact (dropWhile_append_all _ pre _ fun x hx => by
            simpa using hall x hx).symm

theorem dropWhile_head_of_mem {K P : Type} [LinearOrder K] {k : K} :
    ∀ {s : List (SLEntry K P)}, KeySorted s → ∀ e ∈ s, e.key = k →
      (s.dropWhile fun x => decide (x.key < k)).head? = some e := by
  intro s
  induction s with
  | nil => intro _ e he; simp at he
  | cons a rest ih =>
    intro hs e he hek
    rcases List.mem_cons.mp he with rfl | he
    · have : ¬ e.key < k := by rw [hek]; exact lt_irrefl k
      simp [List.dropWhile_cons, this]
    · have hak : a.key < k := hek ▸ (List.pairwise_cons.mp hs).1 e he
      rw [List.dropWhile_cons, if_pos (decide_eq_true hak)]
      exact ih (keySorted_tail hs) e he hek

theorem head_dropWhile_not {α : Type} (p : α → Bool) :
    ∀ {s : List α} {e : α}, (s.dropWhile p).head? = some e → p e = false := by
  intro s
  induction s with
  | nil => intro e h; simp at h
  | cons a rest ih =>
    intro e h
    by_cases ha : p a
    · exact ih (by simpa [List.dropWhile_cons, ha] using h)
    · simp only [List.dropWhile_cons, ha, if_neg] at h
      simp only [Bool.false_eq_true, if_false, List.head?_cons, Option.some.injEq] at h
      exact h ▸ Bool.eq_false_iff.mpr ha

theorem spliceBefore_append {α : Type} (a : α) :
    ∀ (pre s0 : List α), spliceBefore a (pre ++ s0) s0 = pre ++ a :: s0
  | [], s0 => by
    cases s0 with
    | nil => simp [spliceBefore]
    | cons e rest => simp [spliceBefore]
  | e :: pre, s0 => by
    have hlen : ¬ (e :: (pre ++ s0)).length = s0.length := by
      simp only [List.length_append, List.length_cons]
      omega
    rw [List.cons_append, spliceBefore, if_neg hlen]
    exact congrArg (e :: ·) (spliceBefore_append a pre s0)

theorem dropSuffixHead_append {α : Type} :
    ∀ (pre s0 : List α), dropSuffixHead (pre ++ s0) s0 = pre ++ s0.tail
  | [], s0 => by
    cases s0 with
    | nil => simp [dropSuffixHead]
    | cons e rest => simp [dropSuffixHead]
  | e :: pre, s0 => by
    have hlen : ¬ (e :: (pre ++ s0)).length = s0.length := by
      simp only [List.length_append, List.length_cons]
      omega
    rw [List.cons_append, dropSuffixHead, if_neg hlen]
    exact congrArg (e :: ·) (dropSuffixHead_append pre s0)

theorem modifySuffixHead_append {α : Type} (f : α → α) :
    ∀ (pre : List α) (e : α) (rest : List α),
      modifySuffixHead f (pre ++ e :: rest) (e :: rest) = pre ++ f e :: rest
  | [], e, rest => by simp [modifySuffixHead]
  | x :: pre, e, rest => by
    have hlen : ¬ (x :: (pre ++ e :: rest)).length = (e :: rest).length := by
      simp only [List.length_append, List.length_cons]
      omega
    rw [List.cons_append, modifySuffixHead, if_neg hlen]
    exact congrArg (x :: ·) (modifySuffixHead_append f pre e rest)

/-! ### Sortedness lemmas -/

theorem keySorted_of_keys_eq {K P Q : Type} [LinearOrder K]
    {s : List (SLEntry K P)} {s' : List (SLEntry K Q)}
    (h : s'.map SLEntry.key = s.map SLEntry.key) (hs : KeySorted s) :
    KeySorted s' := by
  have h1 : (s.map SLEntry.key).Pairwise (· < ·) := List.pairwise_map.mpr hs
  have h2 : (s'.map SLEntry.key).Pairwise (· < ·) := h ▸ h1
  exact List.pairwise_map.mp h2

theorem dropWhile_of_split {K P : Type} [LinearOrder K] (key : K)
    (a : List (SLEntry K P)) (e : SLEntry K P) (t : List (SLEntry K P))
    (ha : ∀ x ∈ a, x.key < key) (he : ¬ e.key < key) :
    ((a ++ e :: t).dropWhile fun x => decide (x.key < key)) = e :: t := by
  rw [dropWhile_append_all _ a (e :: t) fun x hx => decide_eq_true (ha x hx)]
  simp [List.dropWhile_cons, he]

theorem keySorted_splice {K P : Type} [LinearOrder K]
    {s : List (SLEntry K P)} (hs : KeySorted s) {key : K}
    (new : SLEntry K P) (hk : new.key = key)
    (hne : ∀ e, ((s.dropWhile fun x => decide (x.key < key)).head? = some e) →
      ¬ e.key = key) :
    KeySorted ((s.takeWhile fun x => decide (x.key < key)) ++
      new :: (s.dropWhile fun x => decide (x.key < key))) := by
  set p : SLEntry K P → Bool := fun x => decide (x.key < key) with hp
  have htw : ∀ x ∈ s.takeWhile p, x.key < key := fun x hx => by
    simpa [hp] using List.mem_takeWhile_imp hx
  have htws : KeySorted (s.takeWhile p) := hs.sublist (List.takeWhile_prefix p).sublist
  have hdws : KeySorted (s.dropWhile p) := hs.sublist (List.dropWhile_suffix p).sublist
  have hdwk : ∀ y ∈ s.dropWhile p, key < y.key := by
    intro y hy
    cases hdw : s.dropWhile p with
    | nil => rw [hdw] at hy; simp at hy
    | cons h0 t =>
      have hh0 : (s.dropWhile p).head? = some h0 := by rw [hdw]; rfl
      have h0ge : ¬ h0.key < key := of_decide_eq_false (head_dropWhile_not p hh0)
      have h0ne : ¬ h0.key = key := hne h0 hh0
      have h0gt : key < h0.key := lt_of_le_of_ne (not_lt.mp h0ge) fun h => h0ne h.symm
      rw [hdw] at hy
      rcases List.mem_cons.mp hy with rfl | hy
      · exact h0gt
      · exact lt_trans h0gt ((List.pairwise_cons.mp (hdw ▸ hdws)).1 y hy)
  refine List.pairwise_append.mpr ⟨htws, ?_, ?_⟩
  · refine List.pairwise_cons.mpr ⟨?_, hdws⟩
    intro y hy
    rw [hk]
    exact hdwk y hy
  · intro x hx y hy
    rcases List.mem_cons.mp hy with rfl | hy
    · rw [hk]; exact htw x hx
    · exact lt_trans (htw x hx) (hdwk y hy)

theorem keySorted_remove {K P : Type} [LinearOrder K]
    {a : List (SLEntry K P)} {e : SLEntry K P} {t : List (SLEntry K P)}
    (hs : KeySorted (a ++ e :: t)) : KeySorted (a ++ t) := by
  refine hs.sublist ?_
  exact List.Sublist.append_left (List.sublist_cons_self e t) a

/-! ### Characterization of the optimized-variant operations on sorted states -/

theorem optInsert_found {K V : Type} [LinearOrder K]
    {s : SkipListOptimized K V} (hs : KeySorted s.entries) {key : K}
    {e : SLEntry K V} {t : List (SLEntry K V)}
    (hdw : (s.entries.dropWhile fun x => decide (x.key < key)) = e :: t)
    (he : e.key = key) (value : V) (rl : Nat) :
    s.insert_element key value rl = (1, s) := by
  unfold SkipListOptimized.insert_element
  rw [descend_sorted key s.skip_list_level s.entries hs, hdw]
  simp [he]

theorem optInsert_new {K V : Type} [LinearOrder K]
    {s : SkipListOptimized K V} (hs : KeySorted s.entries) {key : K}
    (hne : ∀ e, ((s.entries.dropWhile fun x => decide (x.key < key)).head? = some e) →
      ¬ e.key = key) (value : V) (rl : Nat) :
    s.insert_element key value rl =
      (0, { s with
        skip_list_level := if s.skip_list_level < rl then rl else s.skip_list_level,
        entries := (s.entries.takeWhile fun x => decide (x.key < key)) ++
          ⟨key, rl, value⟩ :: (s.entries.dropWhile fun x => decide (x.key < key)),
        element_count := s.element_count + 1 }) := by
  have hfound : (match (s.entries.dropWhile fun x => decide (x.key < key)).head? with
      | some e => decide (e.key = key)
      | none => false) = false := by
    cases hh : (s.entries.dropWhile fun x => decide (x.key < key)).head? with
    | none => rfl
    | some e => simpa using hne e hh
  unfold SkipListOptimized.insert_element
  rw [descend_sorted key s.skip_list_level s.entries hs]
  simp only [hfound, Bool.false_eq_true, if_false]
  have hsp := spliceBefore_append (⟨key, rl, value⟩ : SLEntry K V)
    (s.entries.takeWhile fun x => decide (x.key < key))
    (s.entries.dropWhile fun x => decide (x.key < key))
  rw [List.takeWhile_append_dropWhile] at hsp
  rw [hsp]

theorem optDelete_found {K V : Type} [LinearOrder K]
    {s : SkipListOptimized K V} (hs : KeySorted s.entries) {key : K}
    {e : SLEntry K V} {t : List (SLEntry K V)}
    (hdw : (s.entries.dropWhile fun x => decide (x.key < key)) = e :: t)
    (he : e.key = key) :
    s.delete_element key =
      { s with
        skip_list_level := decayLevel
          ((s.entries.takeWhile fun x => decide (x.key < key)) ++ t)
          s.skip_list_level,
        entries := (s.entries.takeWhile fun x => decide (x.key < key)) ++ t,
        element_count := s.element_count - 1 } := by
  have hdrop := dropSuffixHead_append
    (s.entries.takeWhile fun x => decide (x.key < key)) (e :: t)
  rw [← hdw, List.takeWhile_append_dropWhile] at hdrop
  unfold SkipListOptimized.delete_element
  rw [descend_sorted key s.skip_list_level s.entries hs, hdw]
  rw [hdw] at hdrop
  simp [he, hdrop]

theorem optDelete_miss {K V : Type} [LinearOrder K]
    {s : SkipListOptimized K V} (hs : KeySorted s.entries) {key : K}
    (hne : ∀ e, ((s.entries.dropWhile fun x => decide (x.key < key)).head? = some e) →
      ¬ e.key = key) :
    s.delete_element key = s := by
  unfold SkipListOptimized.delete_element
  rw [descend_sorted key s.skip_list_level s.entries hs]
  cases hh : (s.entries.dropWhile fun x => decide (x.key < key)).head? with
  | none => simp [hh]
  | some e => simp [hh, hne e hh]

theorem optSearch_eq {K V : Type} [LinearOrder K]
    {s : SkipListOptimized K V} (hs : KeySorted s.entries) (key : K) :
    s.search_element key =
      match (s.entries.dropWhile fun x => decide (x.key < key)).head? with
      | some e => if e.key = key then (true, some e.payload) else (false, none)
      | none => (false, none) := by
  unfold SkipListOptimized.search_element
  rw [descend_sorted key s.skip_list_level s.entries hs]

/-! ### Characterization of the MVCC operations -/

theorem getActiveTxn_spec {K V : Type} {s : SkipListMVCC K V} {tid : Nat}
    {r : TransactionM K} (h : getActiveTxn s (some tid) = some r) :
    r.txn_id = tid ∧ r.state = TransactionState.ACTIVE ∧
      s.txns.find? (fun x => decide (x.txn_id = tid)) = some r := by
  simp only [getActiveTxn, getTxn] at h
  cases hf : s.txns.find? fun x => decide (x.txn_id = tid) with
  | none =>
    rw [hf] at h
    exact Option.noConfusion h
  | some r' =>
    rw [hf] at h
    have h' : (if r'.state = TransactionState.ACTIVE then some r' else none) = some r := h
    by_cases hst : r'.state = TransactionState.ACTIVE
    · rw [if_pos hst] at h'
      cases h'
      exact ⟨by simpa using List.find?_some hf, hst, rfl⟩
    · rw [if_neg hst] at h'
      exact Option.noConfusion h'

theorem mvccInsert_inactive {K V : Type} [LinearOrder K]
    {s : SkipListMVCC K V} {tid : Option Nat}
    (h : getActiveTxn s tid = none) (key : K) (value : V) (rl : Nat) :
    s.insert_element tid key value rl = (-1, s) := by
  unfold SkipListMVCC.insert_element
  rw [h]

theorem mvccSearch_inactive {K V : Type} [LinearOrder K]
    {s : SkipListMVCC K V} {tid : Option Nat}
    (h : getActiveTxn s tid = none) (key : K) :
    s.search_element tid key = (false, none) := by
  unfold SkipListMVCC.search_element
  rw [h]

theorem mvccDelete_inactive {K V : Type} [LinearOrder K]
    {s : SkipListMVCC K V} {tid : Option Nat}
    (h : getActiveTxn s tid = none) (key : K) :
    s.delete_element tid key = s := by
  unfold SkipListMVCC.delete_element
  rw [h]

theorem mvccRange_inactive {K V : Type} [LinearOrder K]
    {s : SkipListMVCC K V} {tid : Option Nat}
    (h : getActiveTxn s tid = none) (lo hi : K) :
    s.range_query tid lo hi = [] := by
  unfold SkipListMVCC.range_query
  rw [h]

theorem mvccCommit_inactive {K V : Type} [DecidableEq K]
    {s : SkipListMVCC K V} {tid : Option Nat}
    (h : getActiveTxn s tid = none) :
    s.commit_transaction tid = (false, s) := by
  unfold SkipListMVCC.commit_transaction
  rw [h]

theorem mvccAbort_inactive {K V : Type} {s : SkipListMVCC K V} {tid : Option Nat}
    (h : getActiveTxn s tid = none) :
    s.abort_transaction tid = s := by
  unfold SkipListMVCC.abort_transaction
  rw [h]

theorem mvccInsert_found {K V : Type} [LinearOrder K]
    {s : SkipListMVCC K V} {tid : Option Nat} {txn : TransactionM K}
    (hact : getActiveTxn s tid = some txn) (hs : KeySorted s.entries) {key : K}
    {e : SLEntry K (List (Version V))} {t : List (SLEntry K (List (Version V)))}
    (hdw : (s.entries.dropWhile fun x => decide (x.key < key)) = e :: t)
    (he : e.key = key) (value : V) (rl : Nat) :
    s.insert_element tid key value rl =
      (0, { s with
        entries := (s.entries.takeWhile fun x => decide (x.key < key)) ++
          { e with payload := add_version e.payload value txn.txn_id } :: t,
        txns := addModified s.txns txn.txn_id key,
        total_versions := s.total_versions + 1 }) := by
  have hmod := modifySuffixHead_append
    (fun x : SLEntry K (List (Version V)) =>
      { x with payload := add_version x.payload value txn.txn_id })
    (s.entries.takeWhile fun x => decide (x.key < key)) e t
  rw [← hdw, List.takeWhile_append_dropWhile] at hmod
  rw [hdw] at hmod
  unfold SkipListMVCC.insert_element
  rw [hact, descend_sorted key s.skip_list_level s.entries hs, hdw]
  simp [he, hmod]

theorem mvccInsert_new {K V : Type} [LinearOrder K]
    {s : SkipListMVCC K V} {tid : Option Nat} {txn : TransactionM K}
    (hact : getActiveTxn s tid = some txn) (hs : KeySorted s.entries) {key : K}
    (hne : ∀ e, ((s.entries.dropWhile fun x => decide (x.key < key)).head? = some e) →
      ¬ e.key = key) (value : V) (rl : Nat) :
    s.insert_element tid key value rl =
      (0, { s with
        skip_list_level := if s.skip_list_level < rl then rl else s.skip_list_level,
        entries := (s.entries.takeWhile fun x => decide (x.key < key)) ++
          ⟨key, rl, add_version [] value txn.txn_id⟩ ::
            (s.entries.dropWhile fun x => decide (x.key < key)),
        txns := addModified s.txns txn.txn_id key,
        total_versions := s.total_versions + 1 }) := by
  have hfound : (match (s.entries.dropWhile fun x => decide (x.key < key)).head? with
      | some e => decide (e.key = key)
      | none => false) = false := by
    cases hh : (s.entries.dropWhile fun x => decide (x.key < key)).head? with
    | none => rfl
    | some e => simpa using hne e hh
  have hsp := spliceBefore_append
    (⟨key, rl, add_version [] value txn.txn_id⟩ : SLEntry K (List (Version V)))
    (s.entries.takeWhile fun x => decide (x.key < key))
    (s.entries.dropWhile fun x => decide (x.key < key))
  rw [List.takeWhile_append_dropWhile] at hsp
  unfold SkipListMVCC.insert_element
  rw [hact, descend_sorted key s.skip_list_level s.entries hs]
  simp only [hfound, Bool.false_eq_true, if_false]
  rw [hsp]

theorem mvccDelete_found {K V : Type} [LinearOrder K]
    {s : SkipListMVCC K V} {tid : Option Nat} {txn : TransactionM K}
    (hact : getActiveTxn s tid = some txn) (hs : KeySorted s.entries) {key : K}
    {e : SLEntry K (List (Version V))} {t : List (SLEntry K (List (Version V)))}
    (hdw : (s.entries.dropWhile fun x => decide (x.key < key)) = e :: t)
    (he : e.key = key) :
    s.delete_element tid key =
      { s with
        entries := (s.entries.takeWhile fun x => decide (x.key < key)) ++
          { e with payload := mark_deleted e.payload txn.txn_id } :: t } := by
  have hmod := modifySuffixHead_append
    (fun x : SLEntry K (List (Version V)) =>
      { x with payload := mark_deleted x.payload txn.txn_id })
    (s.entries.takeWhile fun x => decide (x.key < key)) e t
  rw [← hdw, List.takeWhile_append_dropWhile] at hmod
  rw [hdw] at hmod
  unfold SkipListMVCC.delete_element
  rw [hact, descend_sorted key s.skip_list_level s.entries hs, hdw]
  simp [he, hmod]

theorem mvccDelete_miss {K V : Type} [LinearOrder K]
    {s : SkipListMVCC K V} {tid : Option Nat} {txn : TransactionM K}
    (hact : getActiveTxn s tid = some txn) (hs : KeySorted s.entries) {key : K}
    (hne : ∀ e, ((s.entries.dropWhile fun x => decide (x.key < key)).head? = some e) →
      ¬ e.key = key) :
    s.delete_element tid key = s := by
  unfold SkipListMVCC.delete_element
  rw [hact, descend_sorted key s.skip_list_level s.entries hs]
  cases hh : (s.entries.dropWhile fun x => decide (x.key < key)).head? with
  | none => simp [hh]
  | some e => simp [hh, hne e hh]

theorem mvccSearch_eq {K V : Type} [LinearOrder K]
    {s : SkipListMVCC K V} {tid : Option Nat} {txn : TransactionM K}
    (hact : getActiveTxn s tid = some txn) (hs : KeySorted s.entries) (key : K) :
    s.search_element tid key =
      match (s.entries.dropWhile fun x => decide (x.key < key)).head? with
      | some e =>
        if e.key = key then
          match get_visible_version e.payload txn.txn_id with
          | some ver => (true, some ver.value)
          | none => (false, none)
        else (false, none)
      | none => (false, none) := by
  unfold SkipListMVCC.search_element
  rw [hact, descend_sorted key s.skip_list_level s.entries hs]

/-! ### The strict-order invariant is preserved by every operation -/

theorem head?_some_ex {α : Type} {l : List α} {e : α} (h : l.head? = some e) :
    ∃ t, l = e :: t := by
  cases l with
  | nil => exact Option.noConfusion h
  | cons a t =>
    have ha : a = e := by simpa using h
    exact ⟨t, by rw [ha]⟩

theorem entries_split {K P : Type} [LinearOrder K] (key : K)
    {s : List (SLEntry K P)} {e : SLEntry K P} {t : List (SLEntry K P)}
    (hdw : (s.dropWhile fun x => decide (x.key < key)) = e :: t) :
    s = (s.takeWhile fun x => decide (x.key < key)) ++ e :: t := by
  rw [← hdw]
  exact (List.takeWhile_append_dropWhile _ _).symm

theorem map_key_preserve {K P : Type} {f : SLEntry K P → SLEntry K P}
    (hf : ∀ e, (f e).key = e.key) (es : List (SLEntry K P)) :
    (es.map f).map SLEntry.key = es.map SLEntry.key := by
  rw [List.map_map]
  exact List.map_congr_left fun e _ => hf e

theorem optInsert_keySorted {K V : Type} [LinearOrder K]
    {s : SkipListOptimized K V} (hs : KeySorted s.entries) (key : K)
    (value : V) (rl : Nat) :
    KeySorted ((s.insert_element key value rl).2).entries := by
  cases hh : (s.entries.dropWhile fun x => decide (x.key < key)).head? with
  | some e =>
    by_cases he : e.key = key
    · obtain ⟨t, hdw⟩ := head?_some_ex hh
      rw [optInsert_found hs hdw he value rl]
      exact hs
    · have hne : ∀ e', ((s.entries.dropWhile fun x => decide (x.key < key)).head? =
          some e') → ¬ e'.key = key := by
        intro e' h'
        rw [hh] at h'
        cases h'
        exact he
      rw [optInsert_new hs hne value rl]
      exact keySorted_splice hs _ rfl hne
  | none =>
    have hne : ∀ e', ((s.entries.dropWhile fun x => decide (x.key < key)).head? =
        some e') → ¬ e'.key = key := by
      intro e' h'
      rw [hh] at h'
      exact Option.noConfusion h'
    rw [optInsert_new hs hne value rl]
    exact keySorted_splice hs _ rfl hne

theorem optDelete_keySorted {K V : Type} [LinearOrder K]
    {s : SkipListOptimized K V} (hs : KeySorted s.entries) (key : K) :
    KeySorted ((s.delete_element key).entries) := by
  cases hh : (s.entries.dropWhile fun x => decide (x.key < key)).head? with
  | some e =>
    by_cases he : e.key = key
    · obtain ⟨t, hdw⟩ := head?_some_ex hh
      rw [optDelete_found hs hdw he]
      exact keySorted_remove (entries_split key hdw ▸ hs)
    · have hne : ∀ e', ((s.entries.dropWhile fun x => decide (x.key < key)).head? =
          some e') → ¬ e'.key = key := by
        intro e' h'
        rw [hh] at h'
        cases h'
        exact he
      rw [optDelete_miss hs hne]
      exact hs
  | none =>
    have hne : ∀ e', ((s.entries.dropWhile fun x => decide (x.key < key)).head? =
        some e') → ¬ e'.key = key := by
      intro e' h'
      rw [hh] at h'
      exact Option.noConfusion h'
    rw [optDelete_miss hs hne]
    exact hs

theorem mvccInsert_keySorted {K V : Type} [LinearOrder K]
    {s : SkipListMVCC K V} (hs : KeySorted s.entries) (tid : Option Nat)
    (key : K) (value : V) (rl : Nat) :
    KeySorted ((s.insert_element tid key value rl).2).entries := by
  cases hact : getActiveTxn s tid with
  | none =>
    rw [mvccInsert_inactive hact key value rl]
    exact hs
  | some txn =>
    cases hh : (s.entries.dropWhile fun x => decide (x.key < key)).head? with
    | some e =>
      by_cases he : e.key = key
      · obtain ⟨t, hdw⟩ := head?_some_ex hh
        rw [mvccInsert_found hact hs hdw he value rl]
        refine keySorted_of_keys_eq ?_ hs
        conv_rhs => rw [entries_split key hdw]
        simp
      · have hne : ∀ e', ((s.entries.dropWhile fun x => decide (x.key < key)).head? =
            some e') → ¬ e'.key = key := by
          intro e' h'
          rw [hh] at h'
          cases h'
          exact he
        rw [mvccInsert_new hact hs hne value rl]
        exact keySorted_splice hs _ rfl hne
    | none =>
      have hne : ∀ e', ((s.entries.dropWhile fun x => decide (x.key < key)).head? =
          some e') → ¬ e'.key = key := by
        intro e' h'
        rw [hh] at h'
        exact Option.noConfusion h'
      rw [mvccInsert_new hact hs hne value rl]
      exact keySorted_splice hs _ rfl hne

theorem mvccDelete_keySorted {K V : Type} [LinearOrder K]
    {s : SkipListMVCC K V} (hs : KeySorted s.entries) (tid : Option Nat)
    (key : K) :
    KeySorted ((s.delete_element tid key).entries) := by
  cases hact : getActiveTxn s tid with
  | none =>
    rw [mvccDelete_inactive hact key]
    exact hs
  | some txn =>
    cases hh : (s.entries.dropWhile fun x => decide (x.key < key)).head? with
    | some e =>
      by_cases he : e.key = key
      · obtain ⟨t, hdw⟩ := head?_some_ex hh
        rw [mvccDelete_found hact hs hdw he]
        refine keySorted_of_keys_eq ?_ hs
        conv_rhs => rw [entries_split key hdw]
        simp
      · have hne : ∀ e', ((s.entries.dropWhile fun x => decide (x.key < key)).head? =
            some e') → ¬ e'.key = key := by
          intro e' h'
          rw [hh] at h'
          cases h'
          exact he
        rw [mvccDelete_miss hact hs hne]
        exact hs
    | none =>
      have hne : ∀ e', ((s.entries.dropWhile fun x => decide (x.key < key)).head? =
          some e') → ¬ e'.key = key := by
        intro e' h'
        rw [hh] at h'
        exact Option.noConfusion h'
      rw [mvccDelete_miss hact hs hne]
      exact hs

theorem foldl_commit_keys {K V : Type} [DecidableEq K] (t : Nat) :
    ∀ (L : List K) (es : List (SLEntry K (List (Version V)))),
      ((L.foldl (fun es k => es.map fun e =>
        if e.key = k then { e with payload := commit_version e.payload t } else e)
        es)).map SLEntry.key = es.map SLEntry.key
  | [], es => rfl
  | k :: L, es => by
    rw [List.foldl_cons, foldl_commit_keys t L]
    refine map_key_preserve (fun e => ?_) es
    by_cases h : e.key = k <;> simp [h]

theorem mvccCommit_keySorted {K V : Type} [LinearOrder K]
    {s : SkipListMVCC K V} (hs : KeySorted s.entries) (tid : Option Nat) :
    KeySorted ((s.commit_transaction tid).2).entries := by
  cases hact : getActiveTxn s tid with
  | none =>
    rw [mvccCommit_inactive hact]
    exact hs
  | some txn =>
    unfold SkipListMVCC.commit_transaction
    rw [hact]
    exact keySorted_of_keys_eq (foldl_commit_keys txn.txn_id txn.modified_nodes s.entries) hs

theorem mvccAbort_keySorted {K V : Type} [LinearOrder K]
    {s : SkipListMVCC K V} (hs : KeySorted s.entries) (tid : Option Nat) :
    KeySorted ((s.abort_transaction tid).entries) := by
  cases hact : getActiveTxn s tid with
  | none =>
    rw [mvccAbort_inactive hact]
    exact hs
  | some txn =>
    unfold SkipListMVCC.abort_transaction
    rw [hact]
    exact hs

theorem mvccGc_keySorted {K V : Type} [LinearOrder K]
    {s : SkipListMVCC K V} (hs : KeySorted s.entries) :
    KeySorted (s.gc.entries) := by
  unfold SkipListMVCC.gc
  refine keySorted_of_keys_eq ?_ hs
  show (s.entries.map fun e : SLEntry K (List (Version V)) =>
      { e with payload := gc_versions e.payload s.get_min_active_txn_id }).map SLEntry.key =
    s.entries.map SLEntry.key
  refine map_key_preserve ?_ s.entries
  exact fun e => rfl

theorem mvccBegin_keySorted {K V : Type} [LinearOrder K]
    {s : SkipListMVCC K V} (hs : KeySorted s.entries) :
    KeySorted ((s.begin_transaction.2).entries) := hs

theorem applyOpt_keySorted {K V : Type} [LinearOrder K]
    {s : SkipListOptimized K V} (hs : KeySorted s.entries) (op : OptOp K V) :
    KeySorted ((applyOpt s op).entries) := by
  cases op with
  | ins k v rl => exact optInsert_keySorted hs k v rl
  | del k => exact optDelete_keySorted hs k

theorem runOpt_keySorted {K V : Type} [LinearOrder K] :
    ∀ (ops : List (OptOp K V)) (s : SkipListOptimized K V),
      KeySorted s.entries → KeySorted ((runOpt ops s).entries)
  | [], _, hs => hs
  | op :: ops, s, hs =>
    runOpt_keySorted ops (applyOpt s op) (applyOpt_keySorted hs op)

theorem applyM_keySorted {K V : Type} [LinearOrder K]
    {s : SkipListMVCC K V} (hs : KeySorted s.entries) (op : MOp K V) :
    KeySorted ((applyM s op).entries) := by
  cases op with
  | begin => exact mvccBegin_keySorted hs
  | ins tid k v rl => exact mvccInsert_keySorted hs (some tid) k v rl
  | del tid k => exact mvccDelete_keySorted hs (some tid) k
  | commit tid => exact mvccCommit_keySorted hs (some tid)
  | abort tid => exact mvccAbort_keySorted hs (some tid)
  | gc => exact mvccGc_keySorted hs

theorem runM_keySorted {K V : Type} [LinearOrder K] :
    ∀ (ops : List (MOp K V)) (s : SkipListMVCC K V),
      KeySorted s.entries → KeySorted ((runM ops s).entries)
  | [], _, hs => hs
  | op :: ops, s, hs =>
    runM_keySorted ops (applyM s op) (applyM_keySorted hs op)

/-! ### Level decay lemmas -/

theorem decayLevel_nil {K P : Type} : ∀ l, decayLevel ([] : List (SLEntry K P)) l = 0
  | 0 => rfl
  | l + 1 => by
    simp only [decayLevel, List.filter_nil, List.isEmpty_nil, if_true]
    exact decayLevel_nil l

theorem decayLevel_le {K P : Type} (es : List (SLEntry K P)) :
    ∀ l, decayLevel es l ≤ l
  | 0 => le_refl 0
  | l + 1 => by
    by_cases h : (es.filter fun e => decide (l + 1 ≤ e.height)).isEmpty
    · simp only [decayLevel, h, if_true]
      exact le_trans (decayLevel_le es l) (Nat.le_succ l)
    · simp only [decayLevel, h, Bool.false_eq_true, if_false]
      exact le_refl _

theorem decayLevel_spec {K P : Type} (es : List (SLEntry K P)) :
    ∀ l, decayLevel es l = 0 ∨ ∃ e ∈ es, decayLevel es l ≤ e.height
  | 0 => Or.inl rfl
  | l + 1 => by
    cases hfe : es.filter fun e => decide (l + 1 ≤ e.height) with
    | nil =>
      have hemp : (es.filter fun e => decide (l + 1 ≤ e.height)).isEmpty = true := by
        rw [hfe]; rfl
      simp only [decayLevel, hemp, if_true]
      exact decayLevel_spec es l
    | cons e t =>
      have hemp : (es.filter fun e => decide (l + 1 ≤ e.height)).isEmpty = false := by
        rw [hfe]; rfl
      simp only [decayLevel, hemp, Bool.false_eq_true, if_false]
      have he : e ∈ es.filter fun e => decide (l + 1 ≤ e.height) := by
        rw [hfe]; exact List.mem_cons_self e t
      have := List.mem_filter.mp he
      exact Or.inr ⟨e, this.1, by simpa using this.2⟩

/-! ### Claim C5 -/

/-- C5: after any sequence of insert and delete operations (run from the
constructor state), the key sequence along `forward[i]` is strictly increasing
at every level, in both the optimized and the MVCC variant: the splicing of
`insert_element` and the unsplicing of `delete_element` preserve the order
invariant. -/
theorem C5_levels_strictly_increasing {K V : Type} [LinearOrder K] (maxL maxL' : Nat)
    (ops : List (OptOp K V)) (mops : List (MOp K V)) :
    (∀ i, ((walkLevel i (runOpt ops (SkipListOptimized.empty maxL)).entries).map
      SLEntry.key).Pairwise (· < ·)) ∧
    (∀ i, ((walkLevel i (runM mops (SkipListMVCC.empty maxL')).entries).map
      SLEntry.key).Pairwise (· < ·)) := by
  have h1 : KeySorted ((runOpt ops (SkipListOptimized.empty maxL)).entries) :=
    runOpt_keySorted ops _ List.Pairwise.nil
  have h2 : KeySorted ((runM mops (SkipListMVCC.empty maxL')).entries) :=
    runM_keySorted mops _ List.Pairwise.nil
  constructor
  · intro i
    exact List.pairwise_map.mpr (h1.filter _)
  · intro i
    exact List.pairwise_map.mpr (h2.filter _)

/-! ### Claim C9 -/

/-- C9: deleting the last remaining node resets the current level to 0; in
general, after a successful `delete_element` the current level is obtained by
decrementing while the header's forward pointer is null, so it does not
increase, it is 0 on an empty list, and otherwise some live node reaches it. -/
theorem C9_delete_level_decay {K V : Type} [LinearOrder K]
    (s : SkipListOptimized K V) (key : K) (hs : KeySorted s.entries)
    (hmem : ∃ e ∈ s.entries, e.key = key) :
    ((s.delete_element key).entries = [] → (s.delete_element key).skip_list_level = 0) ∧
    (s.delete_element key).skip_list_level ≤ s.skip_list_level ∧
    ((s.delete_element key).skip_list_level = 0 ∨
      ∃ e ∈ (s.delete_element key).entries,
        (s.delete_element key).skip_list_level ≤ e.height) := by
  obtain ⟨e, hmem, hek⟩ := hmem
  have hh := dropWhile_head_of_mem hs e hmem hek
  obtain ⟨t, hdw⟩ := head?_some_ex hh
  rw [optDelete_found hs hdw hek]
  refine ⟨?_, decayLevel_le _ _, decayLevel_spec _ _⟩
  intro hnil
  simp only [hnil]
  simp only at hnil
  rw [hnil]
  exact decayLevel_nil _

/-- Witness for C9: deleting the only node (key 1, tower height 3, current
level 3) empties the list and resets the current level to 0. -/
theorem C9_witness :
    ((⟨6, 3, [⟨1, 3, 10⟩], 1⟩ : SkipListOptimized Nat Nat).delete_element 1).skip_list_level
      = 0 :=
  (C9_delete_level_decay ⟨6, 3, [⟨1, 3, 10⟩], 1⟩ 1
    (List.pairwise_singleton _ _) ⟨⟨1, 3, 10⟩, by simp, rfl⟩).1 (by decide)

/-! ### Claim C7 -/

/-- C7: on a null transaction handle, or a transaction whose state is not
Active (Committed or Aborted), `insert_element` returns -1, `search_element`
returns false, `delete_element` changes nothing, `range_query` returns the
empty sequence and `commit_transaction` returns false — in every case the
state (structure, version chains and counters) is left unchanged. -/
theorem C7_inactive_rejected {K V : Type} [LinearOrder K]
    (s : SkipListMVCC K V) (tid : Option Nat)
    (h : tid = none ∨ ∃ r, getTxn s tid = some r ∧ r.state ≠ TransactionState.ACTIVE)
    (key : K) (value : V) (rl : Nat) (lo hi : K) :
    s.insert_element tid key value rl = (-1, s) ∧
    s.search_element tid key = (false, none) ∧
    s.delete_element tid key = s ∧
    s.range_query tid lo hi = [] ∧
    s.commit_transaction tid = (false, s) := by
  have hact : getActiveTxn s tid = none := by
    rcases h with rfl | ⟨r, hr, hst⟩
    · rfl
    · unfold getActiveTxn
      rw [hr]
      show (if r.state = TransactionState.ACTIVE then some r else none) = none
      rw [if_neg hst]
  exact ⟨mvccInsert_inactive hact key value rl, mvccSearch_inactive hact key,
    mvccDelete_inactive hact key, mvccRange_inactive hact lo hi,
    mvccCommit_inactive hact⟩

/-- Witness for C7: in a state holding one committed transaction (id 1), an
insert through the stale handle fails with -1 and leaves the state unchanged. -/
theorem C7_witness :
    (⟨4, 0, [], 2, [], [⟨1, TransactionState.COMMITTED, []⟩], 1, 0, 0⟩ :
        SkipListMVCC Nat Nat).insert_element (some 1) 5 7 1 =
      (-1, ⟨4, 0, [], 2, [], [⟨1, TransactionState.COMMITTED, []⟩], 1, 0, 0⟩) :=
  (C7_inactive_rejected _ (some 1)
    (Or.inr ⟨⟨1, TransactionState.COMMITTED, []⟩, by decide, by decide⟩)
    5 7 1 0 0).1

/-! ### Range-query lemmas -/

theorem collectRange_sorted_eq {K V : Type} [LinearOrder K] (t : Nat) (hi : K) :
    ∀ s0 : List (SLEntry K (List (Version V))), KeySorted s0 →
      collectRange t hi s0 =
        (s0.filter fun e => decide (e.key ≤ hi)).filterMap fun e =>
          (get_visible_version e.payload t).map fun ver => (e.key, ver.value)
  | [], _ => rfl
  | e :: rest, hs => by
    by_cases he : e.key ≤ hi
    · have ih := collectRange_sorted_eq t hi rest (keySorted_tail hs)
      cases hv : get_visible_version e.payload t with
      | some ver => simp [collectRange, he, hv, List.filter_cons, ih]
      | none => simp [collectRange, he, hv, List.filter_cons, ih]
    · have hrest : rest.filter (fun e => decide (e.key ≤ hi)) = [] := by
        refine List.filter_eq_nil_iff.mpr ?_
        intro x hx
        have : e.key < x.key := (List.pairwise_cons.mp hs).1 x hx
        simp only [decide_eq_true_eq]
        intro hxle
        exact he (le_trans (le_of_lt this) hxle)
      simp [collectRange, he, List.filter_cons, hrest]

theorem filter_range_split {K V : Type} [LinearOrder K] (lo hi : K)
    {s : List (SLEntry K (List (Version V)))} (hs : KeySorted s) :
    (s.dropWhile fun x => decide (x.key < lo)).filter (fun e => decide (e.key ≤ hi)) =
      s.filter fun e => decide (lo ≤ e.key) && decide (e.key ≤ hi) := by
  set p : SLEntry K (List (Version V)) → Bool := fun x => decide (x.key < lo) with hp
  have hdws : KeySorted (s.dropWhile p) := hs.sublist (List.dropWhile_suffix p).sublist
  have hdwk : ∀ y ∈ s.dropWhile p, lo ≤ y.key := by
    intro y hy
    cases hdw : s.dropWhile p with
    | nil => rw [hdw] at hy; simp at hy
    | cons h0 tl =>
      have hh0 : (s.dropWhile p).head? = some h0 := by rw [hdw]; rfl
      have h0ge : ¬ h0.key < lo := of_decide_eq_false (head_dropWhile_not p hh0)
      rw [hdw] at hy
      rcases List.mem_cons.mp hy with rfl | hy
      · exact not_lt.mp h0ge
      · exact le_of_lt (lt_of_le_of_lt (not_lt.mp h0ge)
          ((List.pairwise_cons.mp (hdw ▸ hdws)).1 y hy))
  have htwk : ∀ y ∈ s.takeWhile p, y.key < lo := by
    intro y hy
    have := List.mem_takeWhile_imp hy
    simpa [hp] using this
  conv_rhs => rw [← List.takeWhile_append_dropWhile p s]
  rw [List.filter_append]
  have h1 : (s.takeWhile p).filter (fun e => decide (lo ≤ e.key) && decide (e.key ≤ hi)) =
      [] := by
    refine List.filter_eq_nil_iff.mpr ?_
    intro x hx
    simp only [Bool.and_eq_true, decide_eq_true_eq, not_and]
    intro hle
    exact absurd hle (not_le.mpr (htwk x hx))
  have h2 : (s.dropWhile p).filter (fun e => decide (lo ≤ e.key) && decide (e.key ≤ hi)) =
      (s.dropWhile p).filter (fun e => decide (e.key ≤ hi)) := by
    refine List.filter_congr ?_
    intro x hx
    show (decide (lo ≤ x.key) && decide (x.key ≤ hi)) = decide (x.key ≤ hi)
    rw [decide_eq_true (hdwk x hx), Bool.true_and]
  rw [h1, h2, List.nil_append]

theorem pairwise_filterMap_of {α β : Type} {R : α → α → Prop} {S : β → β → Prop}
    (g : α → Option β)
    (hg : ∀ a b pa pb, R a b → g a = some pa → g b = some pb → S pa pb) :
    ∀ l : List α, l.Pairwise R → (l.filterMap g).Pairwise S
  | [], _ => List.Pairwise.nil
  | a :: l, h => by
    obtain ⟨ha, hl⟩ := List.pairwise_cons.mp h
    cases hga : g a with
    | none =>
      rw [List.filterMap_cons_none hga]
      exact pairwise_filterMap_of g hg l hl
    | some pa =>
      rw [List.filterMap_cons_some hga]
      refine List.pairwise_cons.mpr ⟨?_, pairwise_filterMap_of g hg l hl⟩
      intro pb hpb
      obtain ⟨b, hb, hgb⟩ := List.mem_filterMap.mp hpb
      exact hg a b pa pb (ha b hb) hga hgb

/-! ### Claim C6 -/

/-- C6: for an active transaction, `range_query` returns the empty sequence
when `low > high`, and otherwise exactly the pairs `(k, v)` with
`low ≤ k ≤ high`, `k` structurally present, and `v` the value of the first
visible version of `k` for that transaction — in strictly ascending key
order (both bounds inclusive, keys without a visible version omitted). -/
theorem C6_range_query {K V : Type} [LinearOrder K] (s : SkipListMVCC K V)
    (tid : Nat) (txn : TransactionM K)
    (hact : getActiveTxn s (some tid) = some txn)
    (hs : KeySorted s.entries) (lo hi : K) :
    (lo > hi → s.range_query (some tid) lo hi = []) ∧
    (s.range_query (some tid) lo hi).Pairwise (fun p q => p.1 < q.1) ∧
    (∀ k v, (k, v) ∈ s.range_query (some tid) lo hi ↔
      lo ≤ k ∧ k ≤ hi ∧ ∃ e ∈ s.entries, e.key = k ∧
        ∃ ver, get_visible_version e.payload txn.txn_id = some ver ∧
          ver.value = v) := by
  by_cases hlh : lo > hi
  · have hemp : s.range_query (some tid) lo hi = [] := by
      unfold SkipListMVCC.range_query
      rw [hact]
      show (if lo > hi then [] else
        collectRange txn.txn_id hi (descend lo s.skip_list_level s.entries)) = []
      rw [if_pos hlh]
    refine ⟨fun _ => hemp, hemp ▸ List.Pairwise.nil, ?_⟩
    intro k v
    rw [hemp]
    simp only [List.not_mem_nil, false_iff, not_and]
    intro h1 h2
    exact absurd (le_trans h1 h2) (not_le.mpr hlh)
  · have hdws : KeySorted (s.entries.dropWhile fun x => decide (x.key < lo)) :=
      hs.sublist (List.dropWhile_suffix _).sublist
    have heq : s.range_query (some tid) lo hi =
        (s.entries.filter fun e => decide (lo ≤ e.key) && decide (e.key ≤ hi)).filterMap
          fun e => (get_visible_version e.payload txn.txn_id).map fun ver =>
            (e.key, ver.value) := by
      unfold SkipListMVCC.range_query
      rw [hact]
      show (if lo > hi then [] else
          collectRange txn.txn_id hi (descend lo s.skip_list_level s.entries)) = _
      rw [if_neg hlh, descend_sorted lo s.skip_list_level s.entries hs,
        collectRange_sorted_eq txn.txn_id hi _ hdws, filter_range_split lo hi hs]
    refine ⟨fun h => absurd h hlh, ?_, ?_⟩
    · rw [heq]
      refine pairwise_filterMap_of _ ?_ _ (hs.filter _)
      intro a b pa pb hab hga hgb
      cases hva : get_visible_version a.payload txn.txn_id with
      | none => rw [hva] at hga; exact Option.noConfusion hga
      | some ver =>
        rw [hva] at hga
        cases hvb : get_visible_version b.payload txn.txn_id with
        | none => rw [hvb] at hgb; exact Option.noConfusion hgb
        | some ver' =>
          rw [hvb] at hgb
          simp only [Option.map_some', Option.some.injEq] at hga hgb
          rw [← hga, ← hgb]
          exact hab
    · intro k v
      rw [heq]
      constructor
      · intro hmem
        obtain ⟨e, he, hge⟩ := List.mem_filterMap.mp hmem
        obtain ⟨hee, hcond⟩ := List.mem_filter.mp he
        simp only [Bool.and_eq_true, decide_eq_true_eq] at hcond
        cases hv : get_visible_version e.payload txn.txn_id with
        | none => rw [hv] at hge; exact Option.noConfusion hge
        | some ver =>
          rw [hv] at hge
          simp only [Option.map_some', Option.some.injEq, Prod.mk.injEq] at hge
          exact ⟨hge.1 ▸ hcond.1, hge.1 ▸ hcond.2, e, hee, hge.1,
            ver, hv, hge.2⟩
      · rintro ⟨hlo, hhi, e, hee, hek, ver, hver, hval⟩
        refine List.mem_filterMap.mpr ⟨e, ?_, ?_⟩
        · refine List.mem_filter.mpr ⟨hee, ?_⟩
          simp only [Bool.and_eq_true, decide_eq_true_eq, hek]
          exact ⟨hlo, hhi⟩
        · rw [hver]
          simp [hek, hval]

/-- Witness for C6: with one active transaction (id 1) on the empty structure,
a reversed range (7, 3) yields the empty sequence. -/
theorem C6_witness :
    (⟨6, 0, [], 2, [1], [⟨1, TransactionState.ACTIVE, []⟩], 0, 0, 0⟩ :
      SkipListMVCC Nat Nat).range_query (some 1) 7 3 = [] :=
  (C6_range_query
    (⟨6, 0, [], 2, [1], [⟨1, TransactionState.ACTIVE, []⟩], 0, 0, 0⟩ :
      SkipListMVCC Nat Nat) 1 ⟨1, TransactionState.ACTIVE, []⟩ (by decide)
    List.Pairwise.nil 7 3).1 (by decide)

/-! ### Locating nodes and transactions after updates -/

theorem find?_map_pres {α : Type} (f : α → α) (p : α → Bool)
    (hf : ∀ x, p (f x) = p x) :
    ∀ l : List α, (l.map f).find? p = (l.find? p).map f
  | [] => rfl
  | a :: l => by
    cases ha : p a with
    | true =>
      rw [List.map_cons, List.find?_cons_of_pos _ (by rw [hf a, ha]),
        List.find?_cons_of_pos _ (by rw [ha]), Option.map_some']
    | false =>
      rw [List.map_cons, List.find?_cons_of_neg _ (by simp [hf a, ha]),
        List.find?_cons_of_neg _ (by simp [ha])]
      exact find?_map_pres f p hf l

theorem find?_append_of_none {α : Type} (p : α → Bool) :
    ∀ (a b : List α), (∀ x ∈ a, p x = false) → (a ++ b).find? p = b.find? p
  | [], _, _ => rfl
  | x :: a, b, h => by
    rw [List.cons_append, List.find?_cons_of_neg _
      (by simp [h x (List.mem_cons_self x a)])]
    exact find?_append_of_none p a b fun y hy => h y (List.mem_cons_of_mem x hy)

theorem find?_skip_mid {α : Type} (p : α → Bool) :
    ∀ (a : List α) (x : α) (t : List α), p x = false →
      (a ++ x :: t).find? p = (a ++ t).find? p
  | [], x, t, hx => by
    rw [List.nil_append, List.nil_append,
      List.find?_cons_of_neg _ (by simp [hx])]
  | y :: a, x, t, hx => by
    cases hy : p y with
    | true =>
      rw [List.cons_append, List.cons_append, List.find?_cons_of_pos _ (by rw [hy]),
        List.find?_cons_of_pos _ (by rw [hy])]
    | false =>
      rw [List.cons_append, List.cons_append,
        List.find?_cons_of_neg _ (by simp [hy]),
        List.find?_cons_of_neg _ (by simp [hy])]
      exact find?_skip_mid p a x t hx

theorem chainOf_split {K V : Type} [LinearOrder K] {key : K}
    (tw : List (SLEntry K (List (Version V)))) (e : SLEntry K (List (Version V)))
    (t : List (SLEntry K (List (Version V))))
    (htw : ∀ x ∈ tw, x.key < key) (hek : e.key = key) :
    chainOfEntries key (tw ++ e :: t) = e.payload := by
  unfold chainOfEntries
  rw [find?_append_of_none _ tw (e :: t) fun x hx => by
      simp only [decide_eq_false_iff_not]
      exact ne_of_lt (htw x hx),
    List.find?_cons_of_pos _ (by simp [hek])]

theorem chainOf_other {K V : Type} [LinearOrder K] {key k' : K} (hk : ¬ k' = key)
    (tw : List (SLEntry K (List (Version V))))
    (e e' : SLEntry K (List (Version V)))
    (t : List (SLEntry K (List (Version V))))
    (hek : e.key = key) (hek' : e'.key = key) :
    chainOfEntries k' (tw ++ e' :: t) = chainOfEntries k' (tw ++ e :: t) := by
  unfold chainOfEntries
  rw [find?_skip_mid _ tw e' t (by simp [hek']; intro h; exact hk h.symm),
    find?_skip_mid _ tw e t (by simp [hek]; intro h; exact hk h.symm)]

theorem chainOf_absent {K V : Type} [LinearOrder K] {key : K}
    {es : List (SLEntry K (List (Version V)))} (h : ∀ e ∈ es, ¬ e.key = key) :
    chainOfEntries key es = [] := by
  unfold chainOfEntries
  rw [List.find?_eq_none.mpr fun e he => by simpa using h e he]

theorem chainOf_mem {K V : Type} [LinearOrder K] {key : K}
    {es : List (SLEntry K (List (Version V)))} (hs : KeySorted es)
    {e : SLEntry K (List (Version V))} (he : e ∈ es) (hek : e.key = key) :
    chainOfEntries key es = e.payload := by
  obtain ⟨t, hdw⟩ := head?_some_ex (dropWhile_head_of_mem hs e he hek)
  have hsplit := entries_split key hdw
  have htw : ∀ x ∈ es.takeWhile fun x => decide (x.key < key), x.key < key :=
    fun x hx => by simpa using List.mem_takeWhile_imp hx
  rw [hsplit]
  exact chainOf_split _ e t htw hek

theorem getActiveTxn_of_find? {K V : Type} {s : SkipListMVCC K V} {tid : Nat}
    {r : TransactionM K}
    (hf : s.txns.find? (fun x => decide (x.txn_id = tid)) = some r)
    (hst : r.state = TransactionState.ACTIVE) :
    getActiveTxn s (some tid) = some r := by
  simp only [getActiveTxn, getTxn]
  rw [hf]
  show (if r.state = TransactionState.ACTIVE then some r else none) = some r
  rw [if_pos hst]

theorem addModified_find? {K V : Type} [DecidableEq K] {s : SkipListMVCC K V}
    {tid : Nat} {txn : TransactionM K}
    (hf : s.txns.find? (fun x => decide (x.txn_id = tid)) = some txn)
    (htid : txn.txn_id = tid) (key : K) :
    (addModified s.txns tid key).find? (fun x => decide (x.txn_id = tid)) =
      some { txn with modified_nodes := txn.modified_nodes ++ [key] } := by
  unfold addModified
  rw [find?_map_pres _ _ (fun x => by by_cases h : x.txn_id = tid <;> simp [h]), hf,
    Option.map_some']
  rw [if_pos htid]

/-! ### The chain of a key across insert and commit -/

theorem mvccInsert_chain {K V : Type} [LinearOrder K] {s : SkipListMVCC K V}
    {tid : Nat} {txn : TransactionM K}
    (hact : getActiveTxn s (some tid) = some txn) (hs : KeySorted s.entries)
    (key : K) (value : V) (rl : Nat) :
    (s.insert_element (some tid) key value rl).1 = 0 ∧
    chainOfEntries key ((s.insert_element (some tid) key value rl).2).entries =
      mkVersion value txn.txn_id :: chainOfEntries key s.entries ∧
    (∀ k', ¬ k' = key →
      chainOfEntries k' ((s.insert_element (some tid) key value rl).2).entries =
        chainOfEntries k' s.entries) ∧
    ((s.insert_element (some tid) key value rl).2).txns.find?
        (fun x => decide (x.txn_id = tid)) =
      some { txn with modified_nodes := txn.modified_nodes ++ [key] } := by
  obtain ⟨htid, hst, hf⟩ := getActiveTxn_spec hact
  have htw : ∀ x ∈ s.entries.takeWhile fun x => decide (x.key < key), x.key < key :=
    fun x hx => by simpa using List.mem_takeWhile_imp hx
  cases hh : (s.entries.dropWhile fun x => decide (x.key < key)).head? with
  | some e =>
    by_cases he : e.key = key
    · obtain ⟨t, hdw⟩ := head?_some_ex hh
      have hsplit := entries_split key hdw
      rw [mvccInsert_found hact hs hdw he value rl]
      refine ⟨rfl, ?_, ?_, ?_⟩
      · have h1 : chainOfEntries key
            ((s.entries.takeWhile fun x => decide (x.key < key)) ++
              { e with payload := add_version e.payload value txn.txn_id } :: t) =
            add_version e.payload value txn.txn_id :=
          chainOf_split _ { e with payload := add_version e.payload value txn.txn_id }
            t htw he
        have h2 : chainOfEntries key s.entries = e.payload := by
          conv_lhs => rw [hsplit]
          exact chainOf_split _ e t htw he
        rw [h1, h2]
        rfl
      · intro k' hk'
        show chainOfEntries k' ((s.entries.takeWhile fun x => decide (x.key < key)) ++
          { e with payload := add_version e.payload value txn.txn_id } :: t) = _
        conv_rhs => rw [hsplit]
        exact chainOf_other hk' _ e
          { e with payload := add_version e.payload value txn.txn_id } t he he
      · exact htid ▸ addModified_find? hf htid key
    · have hne : ∀ e', ((s.entries.dropWhile fun x => decide (x.key < key)).head? =
          some e') → ¬ e'.key = key := by
        intro e' h'
        rw [hh] at h'
        cases h'
        exact he
      have habs : ∀ x ∈ s.entries, ¬ x.key = key := by
        intro x hx hxk
        exact hne x (dropWhile_head_of_mem hs x hx hxk) hxk
      rw [mvccInsert_new hact hs hne value rl]
      refine ⟨rfl, ?_, ?_, ?_⟩
      · show chainOfEntries key ((s.entries.takeWhile fun x => decide (x.key < key)) ++
          (⟨key, rl, add_version [] value txn.txn_id⟩ : SLEntry K (List (Version V))) ::
            (s.entries.dropWhile fun x => decide (x.key < key))) = _
        rw [chainOf_split _ _ _ htw rfl, chainOf_absent habs]
        rfl
      · intro k' hk'
        show chainOfEntries k' ((s.entries.takeWhile fun x => decide (x.key < key)) ++
          (⟨key, rl, add_version [] value txn.txn_id⟩ : SLEntry K (List (Version V))) ::
            (s.entries.dropWhile fun x => decide (x.key < key))) = _
        unfold chainOfEntries
        rw [find?_skip_mid _ _ _ _ (by simp; intro h; exact hk' h.symm),
          List.takeWhile_append_dropWhile]
      · exact htid ▸ addModified_find? hf htid key
  | none =>
    have hne : ∀ e', ((s.entries.dropWhile fun x => decide (x.key < key)).head? =
        some e') → ¬ e'.key = key := by
      intro e' h'
      rw [hh] at h'
      exact Option.noConfusion h'
    have habs : ∀ x ∈ s.entries, ¬ x.key = key := by
      intro x hx hxk
      exact hne x (dropWhile_head_of_mem hs x hx hxk) hxk
    rw [mvccInsert_new hact hs hne value rl]
    refine ⟨rfl, ?_, ?_, ?_⟩
    · show chainOfEntries key ((s.entries.takeWhile fun x => decide (x.key < key)) ++
        (⟨key, rl, add_version [] value txn.txn_id⟩ : SLEntry K (List (Version V))) ::
          (s.entries.dropWhile fun x => decide (x.key < key))) = _
      rw [chainOf_split _ _ _ htw rfl, chainOf_absent habs]
      rfl
    · intro k' hk'
      show chainOfEntries k' ((s.entries.takeWhile fun x => decide (x.key < key)) ++
        (⟨key, rl, add_version [] value txn.txn_id⟩ : SLEntry K (List (Version V))) ::
          (s.entries.dropWhile fun x => decide (x.key < key))) = _
      unfold chainOfEntries
      rw [find?_skip_mid _ _ _ _ (by simp; intro h; exact hk' h.symm),
        List.takeWhile_append_dropWhile]
    · exact htid ▸ addModified_find? hf htid key

theorem mvccSearch_found {K V : Type} [LinearOrder K]
    {s : SkipListMVCC K V} {tid : Option Nat} {txn : TransactionM K}
    (hact : getActiveTxn s tid = some txn) (hs : KeySorted s.entries) {key : K}
    {e : SLEntry K (List (Version V))} {t : List (SLEntry K (List (Version V)))}
    (hdw : (s.entries.dropWhile fun x => decide (x.key < key)) = e :: t)
    (he : e.key = key) :
    s.search_element tid key =
      match get_visible_version e.payload txn.txn_id with
      | some ver => (true, some ver.value)
      | none => (false, none) := by
  rw [mvccSearch_eq hact hs key, hdw]
  simp [he]

theorem mvccSearch_chain {K V : Type} [LinearOrder K]
    {s : SkipListMVCC K V} {tid : Nat} {txn : TransactionM K}
    (hact : getActiveTxn s (some tid) = some txn) (hs : KeySorted s.entries)
    (key : K) (hmem : ∃ e ∈ s.entries, e.key = key) :
    s.search_element (some tid) key =
      match get_visible_version (chainOfEntries key s.entries) txn.txn_id with
      | some ver => (true, some ver.value)
      | none => (false, none) := by
  obtain ⟨e, he, hek⟩ := hmem
  obtain ⟨t, hdw⟩ := head?_some_ex (dropWhile_head_of_mem hs e he hek)
  rw [mvccSearch_found hact hs hdw hek, chainOf_mem hs he hek]

theorem commit_version_idem {V : Type} (c : List (Version V)) (t : Nat) :
    commit_version (commit_version c t) t = commit_version c t := by
  unfold commit_version
  rw [List.map_map]
  refine List.map_congr_left ?_
  intro v _
  by_cases h : v.create_ts = t <;> simp [h]

theorem chainOf_commit_step {K V : Type} [LinearOrder K] (k k' : K)
    (es : List (SLEntry K (List (Version V)))) (t : Nat) :
    chainOfEntries k (es.map fun e =>
        if e.key = k' then { e with payload := commit_version e.payload t } else e) =
      if k = k' then commit_version (chainOfEntries k es) t
      else chainOfEntries k es := by
  unfold chainOfEntries
  rw [find?_map_pres _ _ (fun x => by by_cases h : x.key = k' <;> simp [h]) es]
  cases hf : es.find? fun e => decide (e.key = k) with
  | none =>
    by_cases hkk : k = k' <;> simp [hkk, commit_version]
  | some e =>
    have hek : e.key = k := by simpa using List.find?_some hf
    rw [Option.map_some']
    by_cases hkk : k = k'
    · rw [if_pos hkk, if_pos (hek.trans hkk)]
    · rw [if_neg hkk, if_neg fun h => hkk (hek ▸ h)]

theorem foldl_commit_chain {K V : Type} [LinearOrder K] (t : Nat) (k : K) :
    ∀ (L : List K) (es : List (SLEntry K (List (Version V)))),
      chainOfEntries k (L.foldl (fun es k' => es.map fun e =>
          if e.key = k' then { e with payload := commit_version e.payload t } else e)
        es) =
      if k ∈ L then commit_version (chainOfEntries k es) t else chainOfEntries k es
  | [], es => by simp
  | k' :: L, es => by
    rw [List.foldl_cons, foldl_commit_chain t k L, chainOf_commit_step k k' es t]
    by_cases h1 : k = k'
    · by_cases h2 : k ∈ L <;>
        simp [h1, h2, commit_version_idem]
    · by_cases h2 : k ∈ L <;>
        simp [h1, h2, List.mem_cons]

theorem mvccCommit_chain {K V : Type} [LinearOrder K] {s : SkipListMVCC K V}
    {tid : Nat} {txn : TransactionM K}
    (hact : getActiveTxn s (some tid) = some txn) (k : K)
    (hk : k ∈ txn.modified_nodes) :
    chainOfEntries k ((s.commit_transaction (some tid)).2).entries =
      commit_version (chainOfEntries k s.entries) txn.txn_id := by
  unfold SkipListMVCC.commit_transaction
  rw [hact]
  show chainOfEntries k (txn.modified_nodes.foldl _ s.entries) = _
  rw [foldl_commit_chain txn.txn_id k txn.modified_nodes s.entries, if_pos hk]

theorem mvccCommit_chain_other {K V : Type} [LinearOrder K] {s : SkipListMVCC K V}
    {tid : Nat} {txn : TransactionM K}
    (hact : getActiveTxn s (some tid) = some txn) (k : K)
    (hk : k ∉ txn.modified_nodes) :
    chainOfEntries k ((s.commit_transaction (some tid)).2).entries =
      chainOfEntries k s.entries := by
  unfold SkipListMVCC.commit_transaction
  rw [hact]
  show chainOfEntries k (txn.modified_nodes.foldl _ s.entries) = _
  rw [foldl_commit_chain txn.txn_id k txn.modified_nodes s.entries, if_neg hk]

theorem mvccCommit_keys {K V : Type} [LinearOrder K] {s : SkipListMVCC K V}
    {tid : Option Nat} {txn : TransactionM K}
    (hact : getActiveTxn s tid = some txn) :
    ((s.commit_transaction tid).2).entries.map SLEntry.key =
      s.entries.map SLEntry.key := by
  unfold SkipListMVCC.commit_transaction
  rw [hact]
  exact foldl_commit_keys txn.txn_id txn.modified_nodes s.entries

theorem mem_key_of_keys_eq {K V P : Type} [LinearOrder K]
    {es : List (SLEntry K P)} {es' : List (SLEntry K (List (Version V)))}
    (h : es'.map SLEntry.key = es.map SLEntry.key) {k : K}
    (hm : ∃ e ∈ es, e.key = k) : ∃ e' ∈ es', e'.key = k := by
  obtain ⟨e, he, hek⟩ := hm
  have : k ∈ es'.map SLEntry.key := by
    rw [h]
    exact List.mem_map.mpr ⟨e, he, hek⟩
  obtain ⟨e', he', hek'⟩ := List.mem_map.mp this
  exact ⟨e', he', hek'⟩

/-! ### Claim C10 -/

/-- C10: for an active transaction, `insert_element` returns 0 both when the
key is structurally new and when it already exists (the return value cannot
distinguish the two); in both cases exactly one new version with `create_ts`
equal to the transaction's id is prepended at the head of the key's chain
(the absent key's chain being empty beforehand), every other key's chain is
untouched, and the node is recorded once more in the transaction's
modified-node list. -/
theorem C10_insert_uniform {K V : Type} [LinearOrder K] (s : SkipListMVCC K V)
    (tid : Nat) (txn : TransactionM K)
    (hact : getActiveTxn s (some tid) = some txn) (hs : KeySorted s.entries)
    (key : K) (value : V) (rl : Nat) :
    (s.insert_element (some tid) key value rl).1 = 0 ∧
    chainOfEntries key ((s.insert_element (some tid) key value rl).2).entries =
      mkVersion value txn.txn_id :: chainOfEntries key s.entries ∧
    (∀ k', ¬ k' = key →
      chainOfEntries k' ((s.insert_element (some tid) key value rl).2).entries =
        chainOfEntries k' s.entries) ∧
    getTxn (s.insert_element (some tid) key value rl).2 (some tid) =
      some { txn with modified_nodes := txn.modified_nodes ++ [key] } := by
  obtain ⟨h0, h1, h2, h3⟩ := mvccInsert_chain hact hs key value rl
  exact ⟨h0, h1, h2, h3⟩

/-- Witness for C10: inserting key 5 through active transaction 1 on the empty
structure returns 0. -/
theorem C10_witness :
    ((⟨6, 0, [], 2, [1], [⟨1, TransactionState.ACTIVE, []⟩], 0, 0, 0⟩ :
      SkipListMVCC Nat Nat).insert_element (some 1) 5 9 1).1 = 0 :=
  (C10_insert_uniform
    (⟨6, 0, [], 2, [1], [⟨1, TransactionState.ACTIVE, []⟩], 0, 0, 0⟩ :
      SkipListMVCC Nat Nat) 1 ⟨1, TransactionState.ACTIVE, []⟩ (by decide)
    List.Pairwise.nil 5 9 1).1

theorem gvv_head_visible {V : Type} (x : Version V) (c : List (Version V))
    (t : Nat) (h : is_visible x t = true) :
    get_visible_version (x :: c) t = some x := by
  simp [get_visible_version, h]

/-! ### Claim C2 -/

/-- C2 (corrected): while transaction `t` is still active, a search of key `k`
inside `t` right after `t` wrote `v` via `insert_element` returns `v`, even
though `t` has not committed (the freshly written version is uncommitted); a
version returned by the lookup to a transaction that did not create it is
always committed; and `commit_transaction` marks every version of `t`'s
modified nodes whose `create_ts` equals `t`'s id as committed, which is what
makes them visible to later transactions. -/
theorem C2_read_committed {K V : Type} [LinearOrder K] (s : SkipListMVCC K V)
    (tid : Nat) (txn : TransactionM K)
    (hact : getActiveTxn s (some tid) = some txn) (hs : KeySorted s.entries)
    (htid : tid < UINT64_MAX) (key : K) (value : V) (rl : Nat) :
    ((s.insert_element (some tid) key value rl).2).search_element (some tid) key =
      (true, some value) ∧
    (∀ (c : List (Version V)) (t' : Nat) (ver : Version V),
      get_visible_version c t' = some ver → ver.create_ts ≠ t' →
        ver.is_committed = true) ∧
    (∀ k', k' ∈ txn.modified_nodes →
      ∀ ver ∈ chainOfEntries k' ((s.commit_transaction (some tid)).2).entries,
        ver.create_ts = tid → ver.is_committed = true) := by
  obtain ⟨htxnid, hst, hf⟩ := getActiveTxn_spec hact
  obtain ⟨h0, h1, h2, h3⟩ := mvccInsert_chain hact hs key value rl
  refine ⟨?_, ?_, ?_⟩
  · have hs1 : KeySorted ((s.insert_element (some tid) key value rl).2).entries :=
      mvccInsert_keySorted hs (some tid) key value rl
    have hact1 : getActiveTxn (s.insert_element (some tid) key value rl).2 (some tid) =
        some { txn with modified_nodes := txn.modified_nodes ++ [key] } :=
      getActiveTxn_of_find? h3
        (hst : ({ txn with modified_nodes := txn.modified_nodes ++ [key] } :
          TransactionM K).state = TransactionState.ACTIVE)
    have hmem : ∃ e ∈ ((s.insert_element (some tid) key value rl).2).entries,
        e.key = key := by
      by_contra hno
      push_neg at hno
      have habs := chainOf_absent fun e he => hno e he
      exact absurd (h1.symm.trans habs) (List.cons_ne_nil _ _)
    rw [mvccSearch_chain hact1 hs1 key hmem, h1]
    show (match get_visible_version
        (mkVersion value txn.txn_id :: chainOfEntries key s.entries) txn.txn_id with
      | some ver => (true, some ver.value)
      | none => (false, none)) = (true, some value)
    rw [show mkVersion value txn.txn_id =
        (⟨value, txn.txn_id, UINT64_MAX, false⟩ : Version V) from rfl,
      get_visible_version_head_own _ value txn.txn_id UINT64_MAX false
        (by rw [htxnid]; exact htid)]
  · exact fun c t' ver h hne => get_visible_version_committed h hne
  · intro k' hk' ver hver hts
    rw [mvccCommit_chain hact k' hk'] at hver
    exact commit_version_marks _ txn.txn_id ver hver (hts.trans htxnid.symm)

/-- Counterexample for C2 as stated: transaction 1 writes 7 to key 1 and can
read it back while active, but once transaction 1 has committed, a search
through its handle fails (the operation is rejected on a non-Active
transaction), so the write is not returned "whether or not t has committed". -/
theorem C2_counterexample :
    (((SkipListMVCC.empty 4 : SkipListMVCC Nat Nat).begin_transaction.2.insert_element
        (some 1) 1 7 1).2.search_element (some 1) 1) = (true, some 7) ∧
    ((((SkipListMVCC.empty 4 : SkipListMVCC Nat Nat).begin_transaction.2.insert_element
        (some 1) 1 7 1).2.commit_transaction (some 1)).2.search_element (some 1) 1) =
      (false, none) := by
  decide

/-- Witness for C2: concrete read-your-own-uncommitted-write through
transaction 1. -/
theorem C2_witness :
    (((⟨6, 0, [], 2, [1], [⟨1, TransactionState.ACTIVE, []⟩], 0, 0, 0⟩ :
      SkipListMVCC Nat Nat).insert_element (some 1) 1 7 1).2).search_element
        (some 1) 1 = (true, some 7) :=
  (C2_read_committed
    (⟨6, 0, [], 2, [1], [⟨1, TransactionState.ACTIVE, []⟩], 0, 0, 0⟩ :
      SkipListMVCC Nat Nat) 1 ⟨1, TransactionState.ACTIVE, []⟩ (by decide)
    List.Pairwise.nil (by decide) 1 7 1).1

/-! ### Claim C4 -/

/-- C4 (corrected): `insert(k, v₁); insert(k, v₂)`.  In the MVCC variant the
newest committed version wins: after one transaction writes v₁ then v₂ to `k`
and commits, any later active transaction reads v₂.  In the optimized
(non-MVCC) variant the second insert reports the key as existing (result 1)
and performs no mutation, so the value observable for `k` stays v₁. -/
theorem C4_double_insert {K V : Type} [LinearOrder K]
    (so : SkipListOptimized K V) (hso : KeySorted so.entries) (k : K)
    (habs : ∀ e ∈ so.entries, ¬ e.key = k) (v1 v2 : V) (rl1 rl2 : Nat)
    (s : SkipListMVCC K V) (tid : Nat) (txn : TransactionM K)
    (hact : getActiveTxn s (some tid) = some txn) (hs : KeySorted s.entries)
    (t' : Nat) (txn' : TransactionM K)
    (hact3 : getActiveTxn
      (((s.insert_element (some tid) k v1 rl1).2.insert_element
          (some tid) k v2 rl2).2.commit_transaction (some tid)).2
      (some t') = some txn')
    (hlt : tid < t') (hmax : t' < UINT64_MAX) :
    ((so.insert_element k v1 rl1).2.insert_element k v2 rl2) =
      (1, (so.insert_element k v1 rl1).2) ∧
    ((so.insert_element k v1 rl1).2).search_element k = (true, some v1) ∧
    (((s.insert_element (some tid) k v1 rl1).2.insert_element
        (some tid) k v2 rl2).2.commit_transaction (some tid)).2.search_element
      (some t') k = (true, some v2) := by
  have hne1 : ∀ e', ((so.entries.dropWhile fun x => decide (x.key < k)).head? =
      some e') → ¬ e'.key = k := by
    intro e' h'
    obtain ⟨t0, hdw0⟩ := head?_some_ex h'
    have he' : e' ∈ so.entries :=
      (List.dropWhile_suffix _).sublist.subset (hdw0 ▸ List.mem_cons_self e' t0)
    exact habs e' he'
  have hins1 := optInsert_new hso hne1 v1 rl1
  have hs1 : KeySorted ((so.insert_element k v1 rl1).2).entries :=
    optInsert_keySorted hso k v1 rl1
  have htw : ∀ x ∈ so.entries.takeWhile fun x => decide (x.key < k), x.key < k :=
    fun x hx => by simpa using List.mem_takeWhile_imp hx
  have hdw1 : (((so.insert_element k v1 rl1).2).entries.dropWhile fun x =>
      decide (x.key < k)) = (⟨k, rl1, v1⟩ : SLEntry K V) ::
        (so.entries.dropWhile fun x => decide (x.key < k)) := by
    rw [hins1]
    exact dropWhile_of_split k _ ⟨k, rl1, v1⟩ _ htw (lt_irrefl k)
  refine ⟨?_, ?_, ?_⟩
  · exact optInsert_found hs1 hdw1 rfl v2 rl2
  · rw [optSearch_eq hs1 k, hdw1]
    simp
  · obtain ⟨htid0, hst0, hf0⟩ := getActiveTxn_spec hact
    obtain ⟨_, h1, _, h3⟩ := mvccInsert_chain hact hs k v1 rl1
    have hsm1 : KeySorted ((s.insert_element (some tid) k v1 rl1).2).entries :=
      mvccInsert_keySorted hs (some tid) k v1 rl1
    have hact1 : getActiveTxn (s.insert_element (some tid) k v1 rl1).2 (some tid) =
        some { txn with modified_nodes := txn.modified_nodes ++ [k] } :=
      getActiveTxn_of_find? h3
        (hst0 : ({ txn with modified_nodes := txn.modified_nodes ++ [k] } :
          TransactionM K).state = TransactionState.ACTIVE)
    obtain ⟨htid1, hst1, hf1⟩ := getActiveTxn_spec hact1
    obtain ⟨_, h1', _, h3'⟩ := mvccInsert_chain hact1 hsm1 k v2 rl2
    have hsm2 : KeySorted (((s.insert_element (some tid) k v1 rl1).2.insert_element
        (some tid) k v2 rl2).2).entries :=
      mvccInsert_keySorted hsm1 (some tid) k v2 rl2
    have hact2 : getActiveTxn ((s.insert_element (some tid) k v1 rl1).2.insert_element
        (some tid) k v2 rl2).2 (some tid) =
        some { { txn with modified_nodes := txn.modified_nodes ++ [k] } with
          modified_nodes := ({ txn with modified_nodes := txn.modified_nodes ++ [k] } :
            TransactionM K).modified_nodes ++ [k] } :=
      getActiveTxn_of_find? h3'
        (hst0 : ({ { txn with modified_nodes := txn.modified_nodes ++ [k] } with
          modified_nodes := ({ txn with modified_nodes := txn.modified_nodes ++ [k] } :
            TransactionM K).modified_nodes ++ [k] } : TransactionM K).state =
          TransactionState.ACTIVE)
    obtain ⟨htid2, hst2, hf2⟩ := getActiveTxn_spec hact2
    rw [htid1] at h1'
    rw [htid0] at h1
    have hk2 : k ∈ ({ { txn with modified_nodes := txn.modified_nodes ++ [k] } with
        modified_nodes := ({ txn with modified_nodes := txn.modified_nodes ++ [k] } :
          TransactionM K).modified_nodes ++ [k] } : TransactionM K).modified_nodes := by
      show k ∈ (txn.modified_nodes ++ [k]) ++ [k]
      simp
    have hchain3 := mvccCommit_chain hact2 k hk2
    rw [htid2, h1', h1] at hchain3
    have hhead : chainOfEntries k
        ((((s.insert_element (some tid) k v1 rl1).2.insert_element
          (some tid) k v2 rl2).2.commit_transaction (some tid)).2).entries =
        (⟨v2, tid, UINT64_MAX, true⟩ : Version V) ::
          commit_version (mkVersion v1 tid :: chainOfEntries k s.entries) tid := by
      rw [hchain3, commit_version_cons]
      simp [mkVersion]
    have hmem2 : ∃ e ∈ (((s.insert_element (some tid) k v1 rl1).2.insert_element
        (some tid) k v2 rl2).2).entries, e.key = k := by
      by_contra hno
      push_neg at hno
      have habs2 := chainOf_absent fun e he => hno e he
      exact absurd (h1'.symm.trans habs2) (List.cons_ne_nil _ _)
    have hmem3 := mem_key_of_keys_eq (mvccCommit_keys hact2) hmem2
    have hsm3 : KeySorted ((((s.insert_element (some tid) k v1 rl1).2.insert_element
        (some tid) k v2 rl2).2.commit_transaction (some tid)).2).entries :=
      mvccCommit_keySorted hsm2 (some tid)
    obtain ⟨htid', hst', hf'⟩ := getActiveTxn_spec hact3
    rw [mvccSearch_chain hact3 hsm3 k hmem3, htid', hhead]
    have hvis : is_visible (⟨v2, tid, UINT64_MAX, true⟩ : Version V) t' = true := by
      have hne : ¬ ((⟨v2, tid, UINT64_MAX, true⟩ : Version V).create_ts = t') :=
        Nat.ne_of_lt hlt
      simp [is_visible, hne, hlt, hmax]
    rw [gvv_head_visible _ _ _ hvis]

/-- Counterexample for C4 as stated: in the optimized variant, after
`insert(1, 10); insert(1, 20)` the lookup still observes 10 — the second
insert reported the key as existing and did not update the value — so the
visible value is not v₂. -/
theorem C4_counterexample :
    ((((SkipListOptimized.empty 6 : SkipListOptimized Nat Nat).insert_element
        1 10 1).2.insert_element 1 20 1).2).search_element 1 = (true, some 10) ∧
    (10 : Nat) ≠ 20 := by
  decide

/-- Witness for C4: two MVCC writes 10 then 20 to key 1 by transaction 1,
committed, are read as 20 by the concurrent later transaction 2. -/
theorem C4_witness :
    ((((⟨6, 0, [], 3, [1, 2], [⟨1, TransactionState.ACTIVE, []⟩,
          ⟨2, TransactionState.ACTIVE, []⟩], 0, 0, 0⟩ :
        SkipListMVCC Nat Nat).insert_element (some 1) 1 10 1).2.insert_element
          (some 1) 1 20 1).2.commit_transaction (some 1)).2.search_element
      (some 2) 1 = (true, some 20) :=
  (C4_double_insert (SkipListOptimized.empty 6 : SkipListOptimized Nat Nat)
    List.Pairwise.nil 1 (fun e he => by simp [SkipListOptimized.empty] at he) 10 20 1 1
    (⟨6, 0, [], 3, [1, 2], [⟨1, TransactionState.ACTIVE, []⟩,
        ⟨2, TransactionState.ACTIVE, []⟩], 0, 0, 0⟩ : SkipListMVCC Nat Nat) 1
    ⟨1, TransactionState.ACTIVE, []⟩ (by decide) List.Pairwise.nil 2
    ⟨2, TransactionState.ACTIVE, []⟩ (by decide) (by decide) (by decide)).2.2

/-! ### Claim C3 -/

/-- Counterexample for C3 as stated: in the ten-committed-writes scenario,
`gc()` reclaims nothing — the oldest version (value 0, created by transaction
1) is still in the chain afterwards, and the chain still holds all ten
versions, because superseded versions keep `delete_ts = UINT64_MAX`, which is
never below the minimum active id. -/
theorem C3_counterexample :
    (⟨0, 1, UINT64_MAX, true⟩ : Version Nat) ∈
        chainOfEntries 1 gcScenarioAfter.entries ∧
    (chainOfEntries 1 gcScenarioAfter.entries).length = 10 := by
  decide

/-- C3 (amended): after ten sequential committed writes `v0 .. v9` to key 1
and a `gc()` with no transaction active (`min_active = next_txn_id = 11`),
the node sequence is left completely unchanged — no version has
`delete_ts < min_active`, so none is reclaimed — the chain head is still v9
(created by transaction 10, committed), and a subsequent read returns v9. -/
theorem C3_gc_scenario :
    gcScenarioAfter.entries = gcScenario.entries ∧
    gcScenarioAfter.get_min_active_txn_id = 11 ∧
    (chainOfEntries 1 gcScenarioAfter.entries).head? =
      some ⟨9, 10, UINT64_MAX, true⟩ ∧
    ((gcScenarioAfter.begin_transaction.2).search_element
      (some gcScenarioAfter.begin_transaction.1) 1) = (true, some 9) := by
  decide

/-! ### Claim C8 -/

/-- Counterexample for C8 as stated: a fresh allocation at level 3 yields a
forward array of 4 slots (indices 0 through `level`), not exactly `level`
slots. -/
theorem C8_counterexample :
    ((NodeMemoryPool.allocate (⟨[], 0, 0⟩ : NodeMemoryPool Nat Nat) 5 7 3).1).forward.length
        = 4 ∧
    ((NodeMemoryPool.allocate (⟨[], 0, 0⟩ : NodeMemoryPool Nat Nat) 5 7 3).1).forward.length
        ≠ 3 := by
  decide

theorem map_fun_none {α β : Type} (l : List α) :
    l.map (fun _ => (none : Option β)) = List.replicate l.length none := by
  induction l with
  | nil => rfl
  | cons a t ih => simp [ih, List.replicate]

/-- C8 (amended): `allocate(key, value, level)` returns a node whose forward
array has exactly `level + 1` slots (indices 0 through `level`), all null,
with the given key and value and `node_level = level`; when the free list is
non-empty the node is taken from its back (its forward array being resized
when its cached level differs from the requested one) and the reuse counter
is bumped, otherwise a fresh node is constructed and the allocation counter
is bumped. -/
theorem C8_allocate {K V : Type} (pool : NodeMemoryPool K V) (hwf : PoolWF pool)
    (key : K) (value : V) (level : Nat) :
    ((pool.allocate key value level).1).forward = List.replicate (level + 1) none ∧
    ((pool.allocate key value level).1).key = key ∧
    ((pool.allocate key value level).1).value = value ∧
    ((pool.allocate key value level).1).node_level = level ∧
    (pool.free_list = [] →
      (pool.allocate key value level).2 =
        { pool with allocated_count := pool.allocated_count + 1 }) ∧
    (pool.free_list ≠ [] →
      (pool.allocate key value level).2 =
        { pool with free_list := pool.free_list.dropLast,
                    reused_count := pool.reused_count + 1 }) := by
  cases hl : pool.free_list.getLast? with
  | none =>
    have hnil : pool.free_list = [] := List.getLast?_eq_none_iff.mp hl
    unfold NodeMemoryPool.allocate
    rw [hl]
    exact ⟨rfl, rfl, rfl, rfl, fun _ => rfl, fun h => absurd hnil h⟩
  | some n =>
    have hmem : n ∈ pool.free_list := by
      obtain ⟨h2, hx⟩ := List.mem_getLast?_eq_getLast hl
      rw [hx]
      exact List.getLast_mem h2
    have hne : pool.free_list ≠ [] := by
      intro h
      rw [h] at hmem
      simp at hmem
    have hlen : n.forward.length = n.node_level + 1 := hwf n hmem
    have hreinit : reinitialize_node n key value level =
        ⟨key, value, level, List.replicate (level + 1) none⟩ := by
      unfold reinitialize_node
      by_cases hnl : n.node_level ≠ level
      · rw [if_pos hnl]
        simp [map_fun_none]
      · rw [if_neg hnl]
        push_neg at hnl
        simp [map_fun_none, hlen, hnl]
    unfold NodeMemoryPool.allocate
    rw [hl]
    exact ⟨congrArg NodeOpt.forward hreinit, congrArg NodeOpt.key hreinit,
      congrArg NodeOpt.value hreinit, congrArg NodeOpt.node_level hreinit,
      fun h => absurd h hne, fun _ => rfl⟩

/-- Witness for C8: reusing the single cached node (cached level 2) at
requested level 4 yields a forward array of five null slots. -/
theorem C8_witness :
    ((NodeMemoryPool.allocate
        (⟨[⟨0, 0, 2, List.replicate 3 none⟩], 5, 7⟩ : NodeMemoryPool Nat Nat)
        1 2 4).1).forward = List.replicate 5 none :=
  (C8_allocate (⟨[⟨0, 0, 2, List.replicate 3 none⟩], 5, 7⟩ : NodeMemoryPool Nat Nat)
    (fun n hn => by rcases List.mem_singleton.mp hn with rfl; rfl) 1 2 4).1

/-- Witness for C1 at a concrete chain: the head is invisible to transaction 3
(deleted at timestamp 0), so the lookup returns the second, visible version. -/
theorem C1_witness :
    ∃ p q, ([⟨10, 3, 0, false⟩, ⟨20, 1, UINT64_MAX, true⟩] : List (Version Nat)) =
      p ++ (⟨20, 1, UINT64_MAX, true⟩ : Version Nat) :: q ∧
      is_visible (⟨20, 1, UINT64_MAX, true⟩ : Version Nat) 3 = true ∧
      ∀ u ∈ p, is_visible u 3 = false :=
  ((C1_visibility_lookup.2 [⟨10, 3, 0, false⟩, ⟨20, 1, UINT64_MAX, true⟩] 3).2
    ⟨20, 1, UINT64_MAX, true⟩ (by decide))

end KVDB
